import Mathlib

/-!
Verification of the cin-dl downloader core (`src/cin-dl.js`) against its
natural-language specification.  The JavaScript functions are shallowly
embedded as executable Lean definitions; API responses, the discovery
cache and the filesystem are passed explicitly.  Machine coercions of the
dynamically typed source (`String(x)`, `Number(x)`, truthiness tests) are
modelled on already-decoded values, as noted at each definition.
-/

namespace CinDl

open List

/-! ## Generic list helpers shared by several embedded functions -/

/-- Order-preserving deduplication: drop elements already `seen`. -/
def setDedupAux {α : Type} [DecidableEq α] (seen : List α) : List α → List α
  | [] => []
  | x :: xs =>
    if x ∈ seen then setDedupAux seen xs else x :: setDedupAux (x :: seen) xs

/-- Order-preserving deduplication keeping the first occurrence of each
element: the observable behaviour of JavaScript `[...new Set(l)]`
(insertion-ordered set). -/
def setDedup {α : Type} [DecidableEq α] (l : List α) : List α :=
  setDedupAux [] l

/-- Insert an element into a list, before the first element `y` with
`le x y`.  Used to build a stable ascending sort. -/
def insSorted {α : Type} (le : α → α → Bool) (x : α) : List α → List α
  | [] => [x]
  | y :: ys => if le x y then x :: y :: ys else y :: insSorted le x ys

/-- Stable ascending insertion sort: the observable behaviour of
JavaScript `Array.prototype.sort` with a numeric comparator (stable per
ECMA-262). -/
def sortStable {α : Type} (le : α → α → Bool) : List α → List α
  | [] => []
  | x :: xs => insSorted le x (sortStable le xs)

/-- One step of the maximum scan: keep the earlier element `x` only when
it strictly outranks the best of the rest. -/
def maxStep {α : Type} (le : α → α → Bool) (x : α) : Option α → α
  | none => x
  | some m => if le x m then m else x

/-- The element of maximal `le`-rank, the later of ties winning: the last
element of the stable ascending sort. -/
def lastMaxBy {α : Type} (le : α → α → Bool) : List α → Option α
  | [] => none
  | x :: xs => some (maxStep le x (lastMaxBy le xs))

theorem setDedupAux_sublist {α : Type} [DecidableEq α] (seen : List α)
    (l : List α) : setDedupAux seen l <+ l := by
  induction l generalizing seen with
  | nil => simp [setDedupAux]
  | cons x xs ih =>
    rw [setDedupAux]
    by_cases hx : x ∈ seen
    · rw [if_pos hx]
      exact (ih seen).cons x
    · rw [if_neg hx]
      exact (ih (x :: seen)).cons₂ x

theorem mem_setDedupAux {α : Type} [DecidableEq α] {a : α} {seen l : List α} :
    a ∈ setDedupAux seen l ↔ a ∈ l ∧ a ∉ seen := by
  induction l generalizing seen with
  | nil => simp [setDedupAux]
  | cons x xs ih =>
    rw [setDedupAux]
    by_cases hx : x ∈ seen
    · rw [if_pos hx, ih]
      constructor
      · rintro ⟨h1, h2⟩
        exact ⟨List.mem_cons_of_mem x h1, h2⟩
      · rintro ⟨h1, h2⟩
        rcases List.mem_cons.1 h1 with h1 | h1
        · exact absurd (h1 ▸ hx) h2
        · exact ⟨h1, h2⟩
    · rw [if_neg hx]
      constructor
      · intro h
        rcases List.mem_cons.1 h with h | h
        · exact ⟨List.mem_cons.2 (Or.inl h), h ▸ hx⟩
        · have := ih.1 h
          exact ⟨List.mem_cons_of_mem x this.1,
            fun hs => this.2 (List.mem_cons_of_mem x hs)⟩
      · rintro ⟨h1, h2⟩
        rcases List.mem_cons.1 h1 with h1 | h1
        · exact h1 ▸ List.mem_cons_self x _
        · by_cases hax : a = x
          · exact hax ▸ List.mem_cons_self x _
          · exact List.mem_cons_of_mem x
              (ih.2 ⟨h1, fun hs => by
                rcases List.mem_cons.1 hs with hs | hs
                · exact hax hs
                · exact h2 hs⟩)

theorem setDedupAux_nodup {α : Type} [DecidableEq α] (seen l : List α) :
    (setDedupAux seen l).Nodup := by
  induction l generalizing seen with
  | nil => simp [setDedupAux]
  | cons x xs ih =>
    rw [setDedupAux]
    by_cases hx : x ∈ seen
    · rw [if_pos hx]; exact ih seen
    · rw [if_neg hx]
      refine List.nodup_cons.2 ⟨fun hmem => ?_, ih (x :: seen)⟩
      exact (mem_setDedupAux.1 hmem).2 (List.mem_cons_self x seen)

theorem setDedupAux_eq_self {α : Type} [DecidableEq α] {seen l : List α}
    (h : l.Nodup) (hd : ∀ a ∈ l, a ∉ seen) : setDedupAux seen l = l := by
  induction l generalizing seen with
  | nil => rfl
  | cons x xs ih =>
    rw [setDedupAux, if_neg (hd x (List.mem_cons_self x xs))]
    congr 1
    refine ih (List.nodup_cons.1 h).2 ?_
    intro a ha
    intro hs
    rcases List.mem_cons.1 hs with hs | hs
    · exact (List.nodup_cons.1 h).1 (hs ▸ ha)
    · exact hd a (List.mem_cons_of_mem x ha) hs

theorem setDedup_sublist {α : Type} [DecidableEq α] (l : List α) :
    setDedup l <+ l :=
  setDedupAux_sublist [] l

theorem mem_setDedup {α : Type} [DecidableEq α] {a : α} {l : List α} :
    a ∈ setDedup l ↔ a ∈ l := by
  rw [setDedup, mem_setDedupAux]
  simp

theorem setDedup_nodup {α : Type} [DecidableEq α] (l : List α) :
    (setDedup l).Nodup :=
  setDedupAux_nodup [] l

theorem setDedup_eq_of_nodup {α : Type} [DecidableEq α] {l : List α}
    (h : l.Nodup) : setDedup l = l :=
  setDedupAux_eq_self h (by simp)

theorem setDedup_idem {α : Type} [DecidableEq α] (l : List α) :
    setDedup (setDedup l) = setDedup l :=
  setDedup_eq_of_nodup (setDedup_nodup l)

theorem insSorted_perm {α : Type} (le : α → α → Bool) (x : α) (l : List α) :
    insSorted le x l ~ x :: l := by
  induction l with
  | nil => simp [insSorted]
  | cons y ys ih =>
    rw [insSorted]
    cases hxy : le x y with
    | true => simp
    | false =>
      simp only [Bool.false_eq_true, if_false]
      calc y :: insSorted le x ys ~ y :: x :: ys := ih.cons y
        _ ~ x :: y :: ys := List.Perm.swap x y ys

theorem sortStable_perm {α : Type} (le : α → α → Bool) (l : List α) :
    sortStable le l ~ l := by
  induction l with
  | nil => simp [sortStable]
  | cons x xs ih =>
    rw [sortStable]
    exact (insSorted_perm le x (sortStable le xs)).trans (ih.cons x)

theorem mem_insSorted {α : Type} {le : α → α → Bool} {x a : α} {l : List α} :
    a ∈ insSorted le x l ↔ a = x ∨ a ∈ l := by
  rw [(insSorted_perm le x l).mem_iff]; simp

theorem insSorted_pairwise {α : Type} {le : α → α → Bool}
    (htot : ∀ a b, le a b = true ∨ le b a = true)
    (htrans : ∀ a b c, le a b = true → le b c = true → le a c = true)
    {x : α} {l : List α} (h : l.Pairwise (fun a b => le a b = true)) :
    (insSorted le x l).Pairwise (fun a b => le a b = true) := by
  induction l with
  | nil => simp [insSorted]
  | cons y ys ih =>
    rw [insSorted]
    cases hxy : le x y with
    | true =>
      simp only [if_true]
      refine List.pairwise_cons.2 ⟨?_, h⟩
      intro b hb
      rcases List.mem_cons.1 hb with hb | hb
      · exact hb ▸ hxy
      · exact htrans x y b hxy ((List.pairwise_cons.1 h).1 b hb)
    | false =>
      simp only [Bool.false_eq_true, if_false]
      have hys := (List.pairwise_cons.1 h).2
      refine List.pairwise_cons.2 ⟨?_, ih hys⟩
      intro b hb
      rcases mem_insSorted.1 hb with hb | hb
      · rw [hb]
        rcases htot x y with hh | hh
        · rw [hxy] at hh; exact absurd hh (by simp)
        · exact hh
      · exact (List.pairwise_cons.1 h).1 b hb

theorem sortStable_pairwise {α : Type} {le : α → α → Bool}
    (htot : ∀ a b, le a b = true ∨ le b a = true)
    (htrans : ∀ a b c, le a b = true → le b c = true → le a c = true)
    (l : List α) :
    (sortStable le l).Pairwise (fun a b => le a b = true) := by
  induction l with
  | nil => simp [sortStable]
  | cons x xs ih =>
    rw [sortStable]
    exact insSorted_pairwise htot htrans ih

theorem getLast?_cons_of_ne_nil {α : Type} {l : List α} (a : α) (h : l ≠ []) :
    (a :: l).getLast? = l.getLast? := by
  cases l with
  | nil => exact absurd rfl h
  | cons b bs => simp [List.getLast?_cons_cons]

theorem getLast?_mem' {α : Type} {l : List α} {a : α}
    (h : l.getLast? = some a) : a ∈ l := by
  induction l with
  | nil => simp at h
  | cons x xs ih =>
    cases xs with
    | nil => simp_all
    | cons y ys =>
      rw [List.getLast?_cons_cons] at h
      exact List.mem_cons_of_mem x (ih h)

/-- In a sorted list, every element is `le` the last element. -/
theorem le_getLast?_of_pairwise {α : Type} {le : α → α → Bool}
    (htot : ∀ a b, le a b = true ∨ le b a = true)
    {l : List α} (h : l.Pairwise (fun a b => le a b = true))
    {m : α} (hm : l.getLast? = some m) :
    ∀ a ∈ l, le a m = true := by
  induction l with
  | nil => simp at hm
  | cons x xs ih =>
    intro a ha
    cases xs with
    | nil =>
      simp at hm ha
      subst hm; subst ha
      rcases htot a a with hh | hh <;> exact hh
    | cons y ys =>
      rw [List.getLast?_cons_cons] at hm
      have hmem : m ∈ y :: ys := getLast?_mem' hm
      rcases List.mem_cons.1 ha with ha | ha
      · subst ha
        exact (List.pairwise_cons.1 h).1 m hmem
      · exact ih (List.pairwise_cons.1 h).2 hm a ha

theorem getLast?_insSorted {α : Type} {le : α → α → Bool}
    (htot : ∀ a b, le a b = true ∨ le b a = true)
    (htrans : ∀ a b c, le a b = true → le b c = true → le a c = true)
    {x : α} {l : List α} (h : l.Pairwise (fun a b => le a b = true)) :
    (insSorted le x l).getLast? =
      match l.getLast? with
      | none => some x
      | some m => if le x m then some m else some x := by
  induction l with
  | nil => simp [insSorted]
  | cons y ys ih =>
    rw [insSorted]
    cases hxy : le x y with
    | true =>
      simp only [if_true]
      rw [getLast?_cons_of_ne_nil x (by simp)]
      cases hys : (y :: ys).getLast? with
      | none => simp at hys
      | some m =>
        have hm : m ∈ y :: ys := getLast?_mem' hys
        have hxm : le x m = true := by
          rcases List.mem_cons.1 hm with hm' | hm'
          · exact hm' ▸ hxy
          · exact htrans x y m hxy ((List.pairwise_cons.1 h).1 m hm')
        simp [hxm]
    | false =>
      simp only [Bool.false_eq_true, if_false]
      have hne : insSorted le x ys ≠ [] := by
        have := (insSorted_perm le x ys).length_eq
        intro hc; rw [hc] at this; simp at this
      rw [getLast?_cons_of_ne_nil y hne,
        ih (List.pairwise_cons.1 h).2]
      cases hys : ys.getLast? with
      | none =>
        have : ys = [] := List.getLast?_eq_none_iff.1 hys
        subst this
        simp [hxy]
      | some m =>
        have hne2 : ys ≠ [] := by
          intro hc; subst hc; simp at hys
        rw [getLast?_cons_of_ne_nil y hne2, hys]

theorem getLast?_sortStable {α : Type} {le : α → α → Bool}
    (htot : ∀ a b, le a b = true ∨ le b a = true)
    (htrans : ∀ a b c, le a b = true → le b c = true → le a c = true)
    (l : List α) :
    (sortStable le l).getLast? = lastMaxBy le l := by
  induction l with
  | nil => simp [sortStable, lastMaxBy]
  | cons x xs ih =>
    rw [sortStable, lastMaxBy,
      getLast?_insSorted htot htrans (sortStable_pairwise htot htrans xs), ih]
    cases lastMaxBy le xs with
    | none => simp [maxStep]
    | some m => by_cases h : le x m = true <;> simp [maxStep, h]

theorem lastMaxBy_eq_none_iff {α : Type} {le : α → α → Bool} {l : List α} :
    lastMaxBy le l = none ↔ l = [] := by
  cases l with
  | nil => simp [lastMaxBy]
  | cons x xs => simp [lastMaxBy]

theorem lastMaxBy_mem {α : Type} {le : α → α → Bool} {l : List α} {m : α}
    (h : lastMaxBy le l = some m) : m ∈ l := by
  induction l with
  | nil => simp [lastMaxBy] at h
  | cons x xs ih =>
    rw [lastMaxBy] at h
    revert h
    cases hxs : lastMaxBy le xs with
    | none =>
      intro h
      simp only [maxStep, Option.some.injEq] at h
      exact List.mem_cons.2 (Or.inl h.symm)
    | some m' =>
      intro h
      by_cases hle : le x m' = true
      · simp only [maxStep, hle, if_true, Option.some.injEq] at h
        rw [h] at hxs
        exact List.mem_cons_of_mem x (ih hxs)
      · simp only [maxStep, hle, if_false, Option.some.injEq] at h
        exact List.mem_cons.2 (Or.inl h.symm)

theorem lastMaxBy_isMax {α : Type} {le : α → α → Bool}
    (htot : ∀ a b, le a b = true ∨ le b a = true)
    (htrans : ∀ a b c, le a b = true → le b c = true → le a c = true)
    {l : List α} {m : α} (h : lastMaxBy le l = some m) :
    ∀ a ∈ l, le a m = true := by
  have hp := sortStable_pairwise htot htrans l
  have hg := getLast?_sortStable htot htrans l
  rw [h] at hg
  intro a ha
  exact le_getLast?_of_pairwise htot hp hg a
    ((sortStable_perm le l).mem_iff.2 ha)

theorem lastMaxBy_of_allTies {α : Type} {le : α → α → Bool} {l : List α}
    (h : ∀ a ∈ l, ∀ b ∈ l, le a b = true) :
    lastMaxBy le l = l.getLast? := by
  induction l with
  | nil => rfl
  | cons x xs ih =>
    rw [lastMaxBy]
    cases hxs : lastMaxBy le xs with
    | none =>
      have : xs = [] := lastMaxBy_eq_none_iff.1 hxs
      subst this; simp [maxStep]
    | some m =>
      have hm : m ∈ xs := lastMaxBy_mem hxs
      have hxm : le x m = true :=
        h x (List.mem_cons_self x xs) m (List.mem_cons_of_mem x hm)
      have hxs_ne : xs ≠ [] := by intro hc; subst hc; simp at hm
      simp only [maxStep, hxm, if_true]
      rw [getLast?_cons_of_ne_nil x hxs_ne, ← hxs]
      exact ih (fun a ha b hb =>
        h a (List.mem_cons_of_mem x ha) b (List.mem_cons_of_mem x hb))

/-! ## Character-level string operations

Executable models of the JavaScript string methods the source uses
(`trim`, `toLowerCase`, `split(",")`), working on the character list so
every claim instance evaluates inside the kernel.  `trim` covers the
ASCII whitespace occurring in catalog data; `toLowerCase` the ASCII
range (language tags and URLs). -/

/-- ASCII whitespace (the `\s` class restricted to the characters that
occur in the modelled data). -/
def isWs (c : Char) : Bool :=
  c = ' ' ∨ c = '\t' ∨ c = '\n' ∨ c = '\r'

/-- JavaScript `String.prototype.trim`. -/
def strTrim (s : String) : String :=
  String.mk (((s.toList.dropWhile isWs).reverse.dropWhile isWs).reverse)

/-- JavaScript `String.prototype.toLowerCase`. -/
def strLower (s : String) : String :=
  String.mk (s.toList.map Char.toLower)

/-- `split(",")` on the character level. -/
def splitCommaGo (cur : List Char) : List Char → List (List Char)
  | [] => [cur.reverse]
  | c :: rest =>
    if c = ',' then cur.reverse :: splitCommaGo [] rest
    else splitCommaGo (c :: cur) rest

/-- JavaScript `String.prototype.split(",")`. -/
def splitComma (s : String) : List String :=
  (splitCommaGo [] s.toList).map String.mk

/-! ## Quality Selector (`pickQuality`, cin-dl.js lines 282-291) -/

/-- One row of the `transcoddedFiles` response.  The JSON fields may be
absent, hence `Option`; values are the already-stringified forms the
source's `String(...)` coercions would produce. -/
structure Quality where
  name : Option String
  resolution : Option String
  videoUrl : Option String
deriving DecidableEq, Repr

/-- Digit-run value (decimal). -/
def digitsVal (cs : List Char) : Nat :=
  cs.foldl (fun acc c => acc * 10 + (c.toNat - '0'.toNat)) 0

/-- After a digit run, does `\s*` followed by `p`/`P` match? -/
def pAfterWs (cs : List Char) : Bool :=
  match cs.dropWhile isWs with
  | [] => false
  | c :: _ => c = 'p' ∨ c = 'P'

/-- Scan for the first match of the regex `(\d+)\s*p` (case-insensitive),
as used by `resNum` in the source.  `prevDigit` marks positions inside a
digit run: the regex's leftmost match always starts at the beginning of a
maximal run, because a match attempt starting mid-run fails exactly when
the attempt at the run's start failed (the character after any shorter
digit prefix is a digit, which `\s*p` cannot consume). -/
def parseResPGo : Bool → List Char → Option Nat
  | _, [] => none
  | prevDigit, c :: rest =>
    if c.isDigit && !prevDigit then
      if pAfterWs (rest.dropWhile Char.isDigit) then
        some (digitsVal (c :: rest.takeWhile Char.isDigit))
      else parseResPGo true rest
    else parseResPGo c.isDigit rest

/-- First match of `(\d+)\s*p` in a string's characters. -/
def parseResP (cs : List Char) : Option Nat :=
  parseResPGo false cs

/-- `resNum` from the source: parse `(\d+)\s*p` out of
`String(q?.resolution || "")`, unparsable → -1.  (`||` maps both a
missing field and an empty label to `""`.) -/
def resNum (q : Quality) : Int :=
  match parseResP (q.resolution.getD "").toList with
  | some n => (n : Int)
  | none => -1

/-- Comparator `(a, b) => resNum(a) - resNum(b)` of the source's
`.sort`, as the "weakly before" relation of a stable ascending sort. -/
def resLe (a b : Quality) : Bool := resNum a ≤ resNum b

/-- `pickQuality` (cin-dl.js lines 282-291): exact `name` match first;
otherwise sort a copy ascending by parsed resolution (stable) and `pop()`
the last element. -/
def pickQuality (qualities : List Quality) (preferredName : String) : Option Quality :=
  if qualities.isEmpty then none
  else
    match qualities.find? (fun q => q.name == some preferredName) with
    | some q => some q
    | none => (sortStable resLe qualities).getLast?

theorem resLe_total : ∀ a b, resLe a b = true ∨ resLe b a = true := by
  intro a b
  simp only [resLe, decide_eq_true_eq]
  omega

theorem resLe_trans : ∀ a b c, resLe a b = true → resLe b c = true → resLe a c = true := by
  intro a b c
  simp only [resLe, decide_eq_true_eq]
  omega

/-! ## Naming Engine (`pad2`, `chooseBaseTitle`, `buildTitle`,
cin-dl.js lines 259-280) -/

/-- The `allVideoInfo` record fields the Naming Engine reads.  `kind`,
`season` and `episodeNummer` hold the string forms `String(x)` of the
JSON values; a missing field is `none`. -/
structure TitleInfo where
  en_title : Option String
  ar_title : Option String
  other_title : Option String
  kind : Option String
  season : Option String
  episodeNummer : Option String
deriving DecidableEq, Repr

/-- `pad2` (lines 259-262): `String(n ?? "").trim()`, empty → `null`,
otherwise `padStart(2, "0")`. -/
def pad2 (n : Option String) : Option String :=
  let s := strTrim (n.getD "")
  if s = "" then none
  else if s.length ≥ 2 then some s
  else some (String.mk (List.replicate (2 - s.length) '0') ++ s)

/-- A trimmed title candidate, `none` when the field is missing or
trims to the empty string (JS falsiness of `""`). -/
def trimmedNonEmpty (t : Option String) : Option String :=
  match t with
  | none => none
  | some s => if strTrim s = "" then none else some (strTrim s)

/-- `chooseBaseTitle` (lines 264-271): first non-empty trimmed title by
priority `en_title`, `ar_title`, `other_title`, else `"untitled"`. -/
def chooseBaseTitle (info : TitleInfo) : String :=
  match trimmedNonEmpty info.en_title with
  | some s => s
  | none =>
    match trimmedNonEmpty info.ar_title with
    | some s => s
    | none =>
      match trimmedNonEmpty info.other_title with
      | some s => s
      | none => "untitled"

/-- Modelled from the spec: the external `sanitize-filename` dependency
("sanitize it for filesystem safety (strip/replace characters illegal in
path segments)"); its source is not part of this repository.  Modelled as
stripping characters illegal in path segments; the 255-byte truncation is
not modelled (no claim depends on it). -/
def sanitize (s : String) : String :=
  String.mk (s.toList.filter (fun c =>
    ¬ (c = '/' ∨ c = '\\' ∨ c = '?' ∨ c = '<' ∨ c = '>' ∨ c = ':' ∨
       c = '*' ∨ c = '|' ∨ c = '"' ∨ c.toNat < 32)))

/-- `buildTitle` (lines 273-280): sanitized base title, suffixed with
`.SxxEyy` exactly when the item is a series episode (`kind` is `"2"`)
and both `pad2` results are non-null. -/
def buildTitle (info : TitleInfo) : String :=
  let base := sanitize (chooseBaseTitle info)
  let isSeries := (info.kind.getD "") = "2"
  match pad2 info.season, pad2 info.episodeNummer with
  | some s, some e => if isSeries then base ++ ".S" ++ s ++ "E" ++ e else base
  | _, _ => base

/-! ## Subtitle filter (`subExt`, `filterSubtitleTracks`,
cin-dl.js lines 301-306 and 338-362) -/

/-- `startsList n h`: does `h` start with `n`? -/
def startsList : List Char → List Char → Bool
  | [], _ => true
  | _ :: _, [] => false
  | a :: as, b :: bs => a = b && startsList as bs

/-- Substring test, the observable behaviour of JavaScript
`String.prototype.includes` / an unanchored regex test. -/
def containsList (needle : List Char) : List Char → Bool
  | [] => startsList needle []
  | c :: rest => startsList needle (c :: rest) || containsList needle rest

/-- `subExt` (lines 301-306) without the leading dot (the caller slices
it off): lowercased URL containing `.srt` → `srt`, else `.vtt` → `vtt`,
else the `srt` default. -/
def subExtName (url : String) : String :=
  let u := (strLower url).toList
  if containsList ".srt".toList u then "srt"
  else if containsList ".vtt".toList u then "vtt"
  else "srt"

/-- One row of the `translationFiles` response. -/
structure RawTrack where
  file : Option String
  type : Option String
  name : Option String
deriving DecidableEq, Repr

/-- A surviving subtitle selection `{url, lang, ext}`. -/
structure SubSel where
  url : String
  lang : String
  ext : String
deriving DecidableEq, Repr

/-- JavaScript `a || b` on an optional string: `b` when the field is
missing or empty (falsy). -/
def orFalsy (a : Option String) (b : String) : String :=
  match a with
  | none => b
  | some s => if s = "" then b else s

/-- `(t?.type || t?.name || "sub").toLowerCase()`. -/
def trackLang (t : RawTrack) : String :=
  strLower (orFalsy t.type (orFalsy t.name "sub"))

/-- The sentinel test `/defaultImages\/loading\.gif/i.test(url)`:
case-insensitive substring. -/
def isLoadingGif (url : String) : Bool :=
  containsList "defaultimages/loading.gif".toList (strLower url).toList

/-- The requested-language set: `langCsv.split(",").map(trim+lower),
drop empties`; `none` = no `--subs` flag (keep all languages). -/
def parseLangCsv (langCsv : Option String) : Option (List String) :=
  match langCsv with
  | none => none
  | some csv =>
    some (((splitComma csv).map (fun s => strLower (strTrim s))).filter (fun s => s ≠ ""))

/-- The per-track survival test and selection record of the first loop of
`filterSubtitleTracks` (lines 345-354): drop tracks without a usable URL
or with the loading-gif sentinel, and tracks outside the requested
language set. -/
def survivorSel (wantLangs : Option (List String)) (t : RawTrack) : Option SubSel :=
  match t.file with
  | none => none
  | some url =>
    if url = "" then none
    else if isLoadingGif url then none
    else
      let lang := trackLang t
      match wantLangs with
      | some ls => if ls.contains lang then some ⟨url, lang, subExtName url⟩ else none
      | none => some ⟨url, lang, subExtName url⟩

/-- Append a selection to its language bucket in the insertion-ordered
map `byLang` (JavaScript `Map` keyed by language). -/
def insertByLang (lang : String) (s : SubSel) :
    List (String × List SubSel) → List (String × List SubSel)
  | [] => [(lang, [s])]
  | (k, l) :: rest =>
    if k = lang then (k, l ++ [s]) :: rest else (k, l) :: insertByLang lang s rest

/-- One iteration of the grouping loop: skip a dropped track, bucket a
surviving one under its language. -/
def groupStep (wantLangs : Option (List String))
    (m : List (String × List SubSel)) (t : RawTrack) :
    List (String × List SubSel) :=
  match survivorSel wantLangs t with
  | none => m
  | some s => insertByLang s.lang s m

/-- The grouping loop: fold all surviving tracks into the `byLang` map. -/
def groupByLang (wantLangs : Option (List String)) (tracks : List RawTrack) :
    List (String × List SubSel) :=
  tracks.foldl (groupStep wantLangs) []

/-- The per-language pick of the output loop (lines 356-361):
`formatPref === "both"` keeps the whole bucket, otherwise
`list.find(x => x.ext === formatPref) || list[0]`. -/
def pickFromBucket (formatPref : String) (l : List SubSel) : List SubSel :=
  if formatPref = "both" then l
  else
    match l with
    | [] => []
    | x :: _ => [(l.find? (fun y => y.ext == formatPref)).getD x]

/-- `filterSubtitleTracks` (lines 338-362).  The guard
`!Array.isArray(tracks)` is outside the model: the input is a list. -/
def filterSubtitleTracks (tracks : List RawTrack) (langCsv : Option String)
    (formatPref : String) : List SubSel :=
  let wantLangs := parseLangCsv langCsv
  ((groupByLang wantLangs tracks).map (fun kv => pickFromBucket formatPref kv.2)).flatten

/-- The flat list of surviving tracks, in input order. -/
def survivors (wantLangs : Option (List String)) (tracks : List RawTrack) : List SubSel :=
  tracks.filterMap (survivorSel wantLangs)

/-! ## Atomic stream download (`streamDownloadAtomic`,
cin-dl.js lines 377-404)

The filesystem side effects are modelled as a trace of operations; a file
is a list of opaque chunks (`Nat` payload ids). -/

/-- Filesystem operations issued by `streamDownloadAtomic`. -/
inductive FsOp where
  | unlink (p : String)
  | create (p : String)
  | write (p : String) (c : Nat)
  | rename (src dst : String)
deriving DecidableEq, Repr

/-- Filesystem contents: path → file contents (`none` = absent). -/
def Fs : Type := String → Option (List Nat)

/-- Apply one operation.  `create` is the empty-file creation of
`fs.createWriteStream`; `write` appends a chunk (the write stream only
ever appends); `rename` moves the source over the destination. -/
def applyOp (fs : Fs) : FsOp → Fs
  | .unlink p => fun q => if q = p then none else fs q
  | .create p => fun q => if q = p then some [] else fs q
  | .write p c => fun q => if q = p then some ((fs p).getD [] ++ [c]) else fs q
  | .rename src dst =>
    fun q => if q = dst then fs src else if q = src then none else fs q

/-- Run a trace of operations. -/
def runOps (fs : Fs) (ops : List FsOp) : Fs :=
  ops.foldl applyOp fs

/-- The operation trace of `streamDownloadAtomic(url, finalPath, opts)`
(lines 377-404).  `existsFinal` is `fs.existsSync(finalPath)`; `chunks`
are the stream chunks delivered before the stream either finishes
(`ok = true`) or errors/aborts (`ok = false`, which rejects before the
`renameSync` line).  A failing HTTP request is `chunks = [], ok = false`
(the write stream is only opened after the response arrives — reaching
`create` before zero chunks and an error is also possible, and is covered
by the same trace since `create` touches only the temporary path). -/
def streamDownloadAtomic (finalPath : String) (existsFinal skipExisting overwrite : Bool)
    (chunks : List Nat) (ok : Bool) : List FsOp :=
  if existsFinal ∧ ¬overwrite ∧ skipExisting then []
  else
    let tmpPath := finalPath ++ ".part"
    (if existsFinal ∧ overwrite then [FsOp.unlink finalPath] else [])
      ++ [FsOp.unlink tmpPath, FsOp.create tmpPath]
      ++ chunks.map (FsOp.write tmpPath)
      ++ (if ok then [FsOp.rename tmpPath finalPath] else [])

theorem tmpPath_ne_finalPath (finalPath : String) :
    finalPath ++ ".part" ≠ finalPath := by
  intro h
  have := congrArg String.length h
  rw [String.length_append] at this
  have h5 : (".part" : String).length = 5 := rfl
  omega

/-! ## Series discovery (cin-dl.js lines 442-564)

API responses are supplied by an explicit `Catalog`; every endpoint
accessor either returns decoded data or throws (`Except`).  Each model
function also reports the number of HTTP requests it issued, mirroring
the single `http.get` of each accessor. -/

/-- A raw catalog item as the discovery code reads it: `id`/`nb` hold
`String(x)` of the JSON value when the field is present; `selfStr` is
`String(e)` of the whole item, reached by `normalizeEpisodeIds` when both
`id` and `nb` are absent (a bare identifier in the response).  `season`
and `episodeNummer` are the numeric values (`Number(x)` of the field),
`kind` and `rootSeries` the string forms. -/
structure RawItem where
  id : Option String := none
  nb : Option String := none
  selfStr : String := ""
  kind : Option String := none
  season : Option Nat := none
  episodeNummer : Option Nat := none
  rootSeries : Option String := none
deriving DecidableEq, Repr

/-- The `{id, season, episode, rootSeries}` records built by
`normalizeVideoSeasonItems` and the crawl map (the crawl stores no
`rootSeries`; it uses `""`). -/
structure Entry where
  id : String
  season : Nat
  episode : Nat
  rootSeries : String
deriving DecidableEq, Repr

/-- The `(a.season - b.season) || (a.episode - b.episode)` comparator as
a "weakly before" relation: ascending by `(season, episode)`. -/
def entryLe (a b : Entry) : Bool :=
  a.season < b.season ∨ (a.season = b.season ∧ a.episode ≤ b.episode)

/-- Lexicographic `(season, episode)` order on identifier keys. -/
def keyLe (p q : Nat × Nat) : Bool :=
  p.1 < q.1 ∨ (p.1 = q.1 ∧ p.2 ≤ q.2)

theorem entryLe_total : ∀ a b, entryLe a b = true ∨ entryLe b a = true := by
  intro a b
  simp only [entryLe, decide_eq_true_eq]
  omega

theorem entryLe_trans :
    ∀ a b c, entryLe a b = true → entryLe b c = true → entryLe a c = true := by
  intro a b c
  simp only [entryLe, decide_eq_true_eq]
  omega

/-- One group of a `videoGroups` response. -/
structure Group where
  content : List RawItem
deriving DecidableEq, Repr

/-- The configuration the cascade reads (`SERIES_EP_ENDPOINT`,
`SERIES_EP_SEASON_PARAM`, `DISCOVER_LANGS`, `DISCOVER_LEVELS`).  The two
CSV lists are modelled already split and trimmed (`.env` parsing is
outside the core per the spec's scope). -/
structure Env where
  seriesEpEndpoint : Option String
  seriesEpSeasonParam : Option String
  discoverLangs : List String
  discoverLevels : List String

/-- The remote catalog: one function per HTTP endpoint the cascade uses;
`.error` models a thrown request error.  `seriesEpisodes` receives the
season query parameter actually placed in the URL (`none` when absent)
and may return JSON `null` (`.ok none`). -/
structure Catalog where
  videoSeason : String → Except String (List RawItem)
  seriesEpisodes : String → Option Nat → Except String (Option (List RawItem))
  videoGroups : String → String → Except String (List Group)

/-- The persisted discovery cache: root identifier → episode-id list
(the `episodes` array of the JSON entry; `updatedAt` carries no
behaviour and is dropped). -/
def Cache : Type := List (String × List String)

def lookupCache : Cache → String → Option (List String)
  | [], _ => none
  | (k, v) :: rest, sid => if k = sid then some v else lookupCache rest sid

def insertCache : Cache → String → List String → Cache
  | [], sid, eps => [(sid, eps)]
  | (k, v) :: rest, sid, eps =>
    if k = sid then (k, eps) :: rest else (k, v) :: insertCache rest sid eps

/-- `normalizeEpisodeIds` item step: `String(e?.id ?? e?.nb ?? e)`
(`??` skips only missing fields, not empty strings). -/
def rawIdString (e : RawItem) : String :=
  match e.id with
  | some s => s
  | none =>
    match e.nb with
    | some s => s
    | none => e.selfStr

/-- `normalizeEpisodeIds` (lines 455-457): map to id strings, drop falsy
(empty) ones. -/
def normalizeEpisodeIds (list : List RawItem) : List String :=
  (list.map rawIdString).filter (fun s => s ≠ "")

/-- The season filter of `normalizeVideoSeasonItems` (line 460):
no/empty filter accepts everything, otherwise
`filters.map(String).includes(String(season ?? ""))` — a missing season
becomes `""`, which never equals a numeral. -/
def vsWant (filters : Option (List Nat)) (season : Option Nat) : Bool :=
  match filters with
  | none => true
  | some fs =>
    if fs.isEmpty then true
    else
      match season with
      | none => false
      | some s => fs.contains s

/-- The `{id, season, episode, rootSeries}` record built from one
`videoSeason` item (line 464-469): `String(it?.nb ?? "").trim()`,
`Number(season ?? 0)`, `Number(episodeNummer ?? 0)`. -/
def vsEntry (it : RawItem) : Entry :=
  ⟨strTrim (it.nb.getD ""), it.season.getD 0, it.episodeNummer.getD 0,
    it.rootSeries.getD ""⟩

/-- The filtered, mapped entry list of `normalizeVideoSeasonItems`
before the sort. -/
def vsEntries (items : List RawItem) (filters : Option (List Nat)) : List Entry :=
  (((items.filter (fun it => (it.kind.getD "") == "2")).filter
      (fun it => vsWant filters it.season)).map vsEntry).filter
    (fun e => e.id ≠ "")

/-- `normalizeVideoSeasonItems` (lines 459-473): keep series-kind items,
apply the season filter, build `{id, season, episode, rootSeries}`
(missing numbers coerce to 0), drop empty ids, sort by
`(season, episode)`, return ids. -/
def normalizeVideoSeasonItems (items : List RawItem) (filters : Option (List Nat)) :
    List String :=
  (sortStable entryLe (vsEntries items filters)).map (fun e => e.id)

/-- `getEpisodesBySeries` (lines 238-249): no endpoint template → `null`
without a request; otherwise one request, the season query parameter
present only when both the param name is configured and a filter value
was passed. -/
def getEpisodesBySeries (env : Env) (cat : Catalog) (sid : String)
    (filt : Option Nat) : Except String (Option (List RawItem)) × Nat :=
  match env.seriesEpEndpoint with
  | none => (.ok none, 0)
  | some _ =>
    let effFilt :=
      match env.seriesEpSeasonParam, filt with
      | some _, some s => some s
      | _, _ => none
    (cat.seriesEpisodes sid effFilt, 1)

/-- The per-season loop of `discoverEpisodesByEndpoint` (lines 478-481):
an error aborts the whole strategy (caught by the caller), episodes of a
`null` response are skipped. -/
def endpointLoop (env : Env) (cat : Catalog) (sid : String) :
    List Nat → List String → Nat → Except String (List String) × Nat
  | [], acc, n => (.ok acc, n)
  | s :: rest, acc, n =>
    match getEpisodesBySeries env cat sid (some s) with
    | (.error e, k) => (.error e, n + k)
    | (.ok d, k) =>
      endpointLoop env cat sid rest
        (acc ++ (match d with | some items => normalizeEpisodeIds items | none => []))
        (n + k)

/-- `discoverEpisodesByEndpoint` (lines 475-487): one query per season
filter value when a season parameter is configured and filters given,
otherwise a single unfiltered query; result deduplicated
(`[...new Set(episodes)]`). -/
def discoverEpisodesByEndpoint (env : Env) (cat : Catalog) (sid : String)
    (filters : Option (List Nat)) : Except String (List String) × Nat :=
  let multi : Bool :=
    (match filters with | some fs => !fs.isEmpty | none => false) &&
      env.seriesEpSeasonParam.isSome
  if multi then
    match endpointLoop env cat sid (filters.getD []) [] 0 with
    | (.ok eps, n) => (.ok (setDedup eps), n)
    | (.error e, n) => (.error e, n)
  else
    match getEpisodesBySeries env cat sid none with
    | (.error e, n) => (.error e, n)
    | (.ok d, n) =>
      (.ok (setDedup (match d with | some items => normalizeEpisodeIds items | none => [])), n)

/-- The crawl's season pass (line 505): `Number(c?.season ?? 0)` is
compared as a string against the filters, so a missing season counts
as `0` here (unlike `vsWant`). -/
def crawlSeasonPass (filters : Option (List Nat)) (s : Nat) : Bool :=
  match filters with
  | none => true
  | some fs => fs.isEmpty || fs.contains s

/-- The entry built from one crawl content item (line 506): the crawl's
map values carry no `rootSeries`. -/
def crawlEntry (it : RawItem) : Entry :=
  ⟨it.nb.getD "", it.season.getD 0, it.episodeNummer.getD 0, ""⟩

/-- One content item of the crawl (lines 499-507): series-kind, matching
root, non-empty id, passing season filter, first occurrence of the id
wins (`if (!found.has(id))`). -/
def crawlAddItem (sid : String) (filters : Option (List Nat))
    (acc : List Entry) (it : RawItem) : List Entry :=
  if (it.kind.getD "") ≠ "2" then acc
  else if (it.rootSeries.getD "") ≠ sid then acc
  else if it.nb.getD "" = "" then acc
  else if ¬ crawlSeasonPass filters (it.season.getD 0) then acc
  else if acc.any (fun e => e.id = it.nb.getD "") then acc
  else acc ++ [crawlEntry it]

/-- All groups of one `videoGroups` response. -/
def crawlAddGroups (sid : String) (filters : Option (List Nat))
    (acc : List Entry) (gs : List Group) : List Entry :=
  gs.foldl (fun a g => g.content.foldl (crawlAddItem sid filters) a) acc

/-- The `(lang, level)` pairs of the nested crawl loops, in loop order. -/
def crawlPairs (env : Env) : List (String × String) :=
  env.discoverLangs.foldr
    (fun l acc => (env.discoverLevels.map (fun v => (l, v))) ++ acc) []

/-- One `(lang, level)` crawl query: a thrown `getVideoGroups` is caught
and logged (lines 509-511), leaving the accumulator untouched. -/
def crawlStep (cat : Catalog) (sid : String) (filters : Option (List Nat))
    (acc : List Entry) (p : String × String) : List Entry :=
  match cat.videoGroups p.1 p.2 with
  | .error _ => acc
  | .ok gs => crawlAddGroups sid filters acc gs

/-- `discoverEpisodesByVideoGroups` (lines 489-515): crawl all
`(lang, level)` pairs (one request each, even when it fails), then sort
the collected map values by `(season, episode)` and return ids. -/
def discoverEpisodesByVideoGroups (env : Env) (cat : Catalog) (sid : String)
    (filters : Option (List Nat)) : List String × Nat :=
  let entries := (crawlPairs env).foldl (crawlStep cat sid filters) []
  ((sortStable entryLe entries).map (fun e => e.id), (crawlPairs env).length)

/-- The running state of `expandSeriesToEpisodeIds`: accumulated output,
working cache object, and requests issued so far. -/
structure DiscState where
  out : List String
  cache : Cache
  reqs : Nat

/-- The strategy pipeline of the cascade's loop body (lines 528-553):
strategy A (`videoSeason`, errors caught), then strategy B (configured
endpoint, errors caught, empty result discarded), then strategy C (the
crawl); paired with the number of requests issued. -/
def discoverEps (env : Env) (cat : Catalog) (sid : String)
    (filters : Option (List Nat)) : List String × Nat :=
  let eps1 : List String :=
    match cat.videoSeason sid with
    | .ok vs => normalizeVideoSeasonItems vs filters
    | .error _ => []
  let bres :=
    if eps1.isEmpty then
      match discoverEpisodesByEndpoint env cat sid filters with
      | (.ok l, n) => (if l.isEmpty then [] else l, n)
      | (.error _, n) => ([], n)
    else (eps1, 0)
  let cres :=
    if bres.1.isEmpty then discoverEpisodesByVideoGroups env cat sid filters
    else (bres.1, 0)
  (cres.1, 1 + bres.2 + cres.2)

/-- The loop body of `expandSeriesToEpisodeIds` (lines 520-561) for one
root identifier: cached entry (with caching enabled) short-circuits;
otherwise the strategy pipeline runs, and its result is pushed and
cached deduplicated. -/
def expandOne (env : Env) (cat : Catalog) (noCache : Bool)
    (filters : Option (List Nat)) (st : DiscState) (sid : String) : DiscState :=
  match lookupCache st.cache sid, noCache with
  | some eps, false => { st with out := st.out ++ eps }
  | _, _ =>
    let d := discoverEps env cat sid filters
    { out := st.out ++ d.1,
      cache := insertCache st.cache sid (setDedup d.1),
      reqs := st.reqs + d.2 }

/-- `expandSeriesToEpisodeIds` (lines 517-564).  `cache0` is the cache
file contents; `loadCache` ignores it under `--no-cache`, `saveCache`
then leaves the file untouched.  The returned `.out` is the function's
return value `[...new Set(out)]`, `.cache` the file contents afterwards,
`.reqs` the catalog requests issued. -/
def expandSeriesToEpisodeIds (env : Env) (cat : Catalog) (noCache : Bool)
    (cache0 : Cache) (sids : List String) (filters : Option (List Nat)) : DiscState :=
  let working : Cache := if noCache then [] else cache0
  let st := sids.foldl (expandOne env cat noCache filters) ⟨[], working, 0⟩
  ⟨setDedup st.out, if noCache then cache0 else st.cache, st.reqs⟩

/-! ## Per-identifier job (`processMovie`, cin-dl.js lines 569-684)

The claims about the job concern its early error returns and per-job
isolation, so the model covers the pipeline up to the download plan: the
fetched data is an explicit input, and `downloads` lists the URLs the
job would stream (video first, then surviving subtitles), all of which
come after both early returns in the source. -/

/-- The data `processMovie` fetches for one identifier. -/
structure JobInput where
  id : String
  info : TitleInfo
  qualities : List Quality
  tracks : List RawTrack
deriving Repr

/-- The job configuration fields the modelled stages read. -/
structure JobCfg where
  quality : String
  subs : Option String
  subsFormat : String

/-- A `JobResult`: status and the streams the job downloads. -/
structure JobRes where
  id : String
  status : String
  downloads : List String
deriving DecidableEq, Repr

/-- `processMovie` (lines 569-684) up to the download plan: empty
quality list → `no-qualities`; chosen variant without a usable
`videoUrl` → `no-quality-url`; otherwise `ok` with the video URL and the
surviving subtitle URLs. -/
def processMovie (cfg : JobCfg) (inp : JobInput) : JobRes :=
  if inp.qualities.isEmpty then ⟨inp.id, "no-qualities", []⟩
  else
    match pickQuality inp.qualities cfg.quality with
    | none => ⟨inp.id, "no-quality-url", []⟩ -- `!chosen?.videoUrl` is true for null
    | some chosen =>
      if chosen.videoUrl.getD "" = "" then ⟨inp.id, "no-quality-url", []⟩
      else
        ⟨inp.id, "ok",
          chosen.videoUrl.getD "" ::
            (filterSubtitleTracks inp.tracks cfg.subs cfg.subsFormat).map
              (fun t => t.url)⟩

/-- The per-identifier fan-out of `main` (lines 774-783): one job per
input, no shared state between jobs. -/
def runJobs (cfg : JobCfg) (inputs : List JobInput) : List JobRes :=
  inputs.map (processMovie cfg)

/-! ## Concrete discovery fixtures used by counterexamples and
witnesses -/

/-- A series-kind catalog item with the fields discovery reads. -/
def cexItem (nb : String) (s e : Nat) (root : String) : RawItem :=
  { nb := some nb, kind := some "2", season := some s,
    episodeNummer := some e, rootSeries := some root }

/-- No configured endpoint; one `(lang, level)` pair. -/
def cexEnvA : Env := ⟨none, none, ["ar"], ["0"]⟩

/-- A catalog whose `videoSeason` lists one episode for root `3293`; the
other endpoints fail or return `null`. -/
def cexCatA : Catalog :=
  ⟨fun sid => if sid = "3293" then .ok [cexItem "10" 1 1 "3293"] else .error "down",
   fun _ _ => .ok none,
   fun _ _ => .error "down"⟩

/-- A configured endpoint template (season parameter unconfigured). -/
def cexEnvB : Env :=
  ⟨some "/android/seriesEpisodes/id/{seriesId}", none, ["ar"], ["0"]⟩

/-- A catalog whose `videoSeason` is empty and whose configured endpoint
lists root `3293`'s episodes in reverse `(season, episode)` order. -/
def cexCatB : Catalog :=
  ⟨fun _ => .ok [],
   fun sid _ =>
     if sid = "3293" then .ok (some [cexItem "20" 2 1 "3293", cexItem "10" 1 1 "3293"])
     else .ok none,
   fun _ _ => .error "down"⟩

/-- The `(season, episode)` key the catalog of `cexCatB` reports for each
of its episode identifiers. -/
def cexKey : String → Nat × Nat := fun s => if s = "20" then (2, 1) else (1, 1)

/-! ## Claim theorems -/

theorem runOps_append (fs : Fs) (l1 l2 : List FsOp) :
    runOps fs (l1 ++ l2) = runOps (runOps fs l1) l2 := by
  simp [runOps, List.foldl_append]

/-- A trace of unlinks, creates and writes that all avoid a path leaves
that path's content as it was or absent (the leading overwrite-unlink may
still target it). -/
theorem runOps_no_touch (fs0 : Fs) (finalPath : String) :
    ∀ (pre : List FsOp) (fs : Fs),
      (∀ op ∈ pre, (∃ p, op = FsOp.unlink p) ∨
        (∃ p, op = FsOp.create p ∧ p ≠ finalPath) ∨
        (∃ p c, op = FsOp.write p c ∧ p ≠ finalPath)) →
      (fs finalPath = fs0 finalPath ∨ fs finalPath = none) →
      (runOps fs pre finalPath = fs0 finalPath ∨ runOps fs pre finalPath = none) := by
  intro pre
  induction pre with
  | nil => intro fs _ hinv; exact hinv
  | cons op rest ih =>
    intro fs hops hinv
    have hop := hops op (List.mem_cons_self op rest)
    have hrest : ∀ o ∈ rest, (∃ p, o = FsOp.unlink p) ∨
        (∃ p, o = FsOp.create p ∧ p ≠ finalPath) ∨
        (∃ p c, o = FsOp.write p c ∧ p ≠ finalPath) :=
      fun o ho => hops o (List.mem_cons_of_mem op ho)
    rw [show runOps fs (op :: rest) = runOps (applyOp fs op) rest from rfl]
    refine ih (applyOp fs op) hrest ?_
    rcases hop with ⟨p, rfl⟩ | ⟨p, rfl, hp⟩ | ⟨p, c, rfl, hp⟩
    · by_cases hq : finalPath = p
      · right; simp [applyOp, hq]
      · have : applyOp fs (FsOp.unlink p) finalPath = fs finalPath := by
          simp only [applyOp]
          rw [if_neg hq]
        rw [this]; exact hinv
    · have : applyOp fs (FsOp.create p) finalPath = fs finalPath := by
        simp only [applyOp]
        rw [if_neg (fun h => hp h.symm)]
      rw [this]; exact hinv
    · have : applyOp fs (FsOp.write p c) finalPath = fs finalPath := by
        simp only [applyOp]
        rw [if_neg (fun h => hp h.symm)]
      rw [this]; exact hinv

/-- Writing a chunk sequence appends it to an existing file. -/
theorem runOps_writes (p : String) (cs : List Nat) :
    ∀ (fs : Fs) (l : List Nat), fs p = some l →
      runOps fs (cs.map (FsOp.write p)) p = some (l ++ cs) := by
  induction cs with
  | nil => intro fs l hl; simpa [runOps] using hl
  | cons c rest ih =>
    intro fs l hl
    rw [List.map_cons,
      show runOps fs (FsOp.write p c :: rest.map (FsOp.write p))
        = runOps (applyOp fs (FsOp.write p c)) (rest.map (FsOp.write p)) from rfl,
      ih (applyOp fs (FsOp.write p c)) (l ++ [c]) (by simp [applyOp, hl])]
    simp

/--
C3: `streamDownloadAtomic` creates and writes only at the temporary
sibling path `finalPath + ".part"`, whose prior leftover is unlinked
before the stream starts; any rename in the trace is the single final
commit, present exactly when the stream completes without error; along
every rename-free prefix of the trace the final path holds the previous
complete content or nothing (removed only by the overwrite-unlink); and
on error-free completion the final path holds exactly the streamed
content.
-/
theorem streamDownloadAtomic_atomic (finalPath : String)
    (existsFinal skipExisting overwrite : Bool) (chunks : List Nat) (ok : Bool)
    (fs0 : Fs) :
    (∀ p c, FsOp.write p c ∈
        streamDownloadAtomic finalPath existsFinal skipExisting overwrite chunks ok →
      p = finalPath ++ ".part")
    ∧ (∀ p, FsOp.create p ∈
          streamDownloadAtomic finalPath existsFinal skipExisting overwrite chunks ok →
        p = finalPath ++ ".part")
    ∧ (∀ s d, FsOp.rename s d ∈
          streamDownloadAtomic finalPath existsFinal skipExisting overwrite chunks ok →
        ok = true ∧ s = finalPath ++ ".part" ∧ d = finalPath ∧
          (streamDownloadAtomic finalPath existsFinal skipExisting overwrite chunks ok).getLast?
            = some (FsOp.rename (finalPath ++ ".part") finalPath))
    ∧ (∀ pre, pre <+:
          streamDownloadAtomic finalPath existsFinal skipExisting overwrite chunks ok →
        FsOp.rename (finalPath ++ ".part") finalPath ∉ pre →
        runOps fs0 pre finalPath = fs0 finalPath ∨ runOps fs0 pre finalPath = none)
    ∧ (ok = true →
        ¬ (existsFinal = true ∧ ¬ overwrite = true ∧ skipExisting = true) →
        runOps fs0 (streamDownloadAtomic finalPath existsFinal skipExisting overwrite chunks ok)
          finalPath = some chunks) := by
  have htmp : finalPath ++ ".part" ≠ finalPath := tmpPath_ne_finalPath finalPath
  by_cases hskip : (existsFinal = true ∧ ¬ overwrite = true ∧ skipExisting = true)
  · rw [show streamDownloadAtomic finalPath existsFinal skipExisting overwrite chunks ok
        = [] by rw [streamDownloadAtomic, if_pos hskip]]
    refine ⟨by simp, by simp, by simp, ?_, fun _ h => absurd hskip h⟩
    intro pre hpre _
    have hnil : pre = [] := by
      have hl : pre.length ≤ ([] : List FsOp).length := hpre.sublist.length_le
      simpa using hl
    rw [hnil]
    exact Or.inl rfl
  · have htr : streamDownloadAtomic finalPath existsFinal skipExisting overwrite chunks ok
        = ((if existsFinal = true ∧ overwrite = true then [FsOp.unlink finalPath] else [])
            ++ [FsOp.unlink (finalPath ++ ".part"), FsOp.create (finalPath ++ ".part")]
            ++ chunks.map (FsOp.write (finalPath ++ ".part")))
          ++ (if ok = true
              then [FsOp.rename (finalPath ++ ".part") finalPath] else []) := by
      rw [streamDownloadAtomic, if_neg hskip]
    -- classification of the rename-free part of the trace
    have hmem_pre0 : ∀ op ∈ ((if existsFinal = true ∧ overwrite = true
          then [FsOp.unlink finalPath] else [])
        ++ [FsOp.unlink (finalPath ++ ".part"), FsOp.create (finalPath ++ ".part")]
        ++ chunks.map (FsOp.write (finalPath ++ ".part"))),
        op = FsOp.unlink finalPath ∨ op = FsOp.unlink (finalPath ++ ".part") ∨
        op = FsOp.create (finalPath ++ ".part") ∨
        (∃ c, op = FsOp.write (finalPath ++ ".part") c) := by
      intro op hop
      rcases List.mem_append.1 hop with hop | hop
      · rcases List.mem_append.1 hop with hop | hop
        · left
          split at hop
          · rcases List.mem_singleton.1 hop with rfl
            rfl
          · simp at hop
        · rcases List.mem_cons.1 hop with rfl | hop
          · exact Or.inr (Or.inl rfl)
          · rcases List.mem_singleton.1 hop with rfl
            exact Or.inr (Or.inr (Or.inl rfl))
      · rcases List.mem_map.1 hop with ⟨c, _, rfl⟩
        exact Or.inr (Or.inr (Or.inr ⟨c, rfl⟩))
    refine ⟨?_, ?_, ?_, ?_, ?_⟩
    · -- (a) writes only to the temporary path
      intro p c hpc
      rw [htr] at hpc
      rcases List.mem_append.1 hpc with hpc | hpc
      · rcases hmem_pre0 _ hpc with h | h | h | ⟨c2, h⟩
        · exact absurd h (by simp)
        · exact absurd h (by simp)
        · exact absurd h (by simp)
        · injection h with h1 h2
      · split at hpc
        · rcases List.mem_singleton.1 hpc with h
          cases h
        · simp at hpc
    · -- (a') the file creation also targets only the temporary path
      intro p hpc
      rw [htr] at hpc
      rcases List.mem_append.1 hpc with hpc | hpc
      · rcases hmem_pre0 _ hpc with h | h | h | ⟨c2, h⟩
        · exact absurd h (by simp)
        · exact absurd h (by simp)
        · injection h with h1
        · exact absurd h (by simp)
      · split at hpc
        · rcases List.mem_singleton.1 hpc with h
          cases h
        · simp at hpc
    · -- (b) any rename is the single error-free commit, last in the trace
      intro s d hsd
      rw [htr] at hsd
      rcases List.mem_append.1 hsd with hsd | hsd
      · rcases hmem_pre0 _ hsd with h | h | h | ⟨c2, h⟩ <;> exact absurd h (by simp)
      · by_cases hok : ok = true
        · rw [if_pos hok] at hsd
          rcases List.mem_singleton.1 hsd with h
          cases h
          refine ⟨hok, rfl, rfl, ?_⟩
          rw [htr, if_pos hok, List.getLast?_concat]
        · rw [if_neg hok] at hsd
          simp at hsd
    · -- (c) rename-free prefixes leave the final path old or absent
      intro pre hpre hnorn
      refine runOps_no_touch fs0 finalPath pre fs0 ?_ (Or.inl rfl)
      intro op hop
      have hoptr := hpre.sublist.mem hop
      rw [htr] at hoptr
      rcases List.mem_append.1 hoptr with h1 | h1
      · rcases hmem_pre0 _ h1 with h | h | h | ⟨c2, h⟩
        · exact Or.inl ⟨finalPath, h⟩
        · exact Or.inl ⟨finalPath ++ ".part", h⟩
        · exact Or.inr (Or.inl ⟨finalPath ++ ".part", h, htmp⟩)
        · exact Or.inr (Or.inr ⟨finalPath ++ ".part", c2, h, htmp⟩)
      · split at h1
        · rcases List.mem_singleton.1 h1 with rfl
          exact absurd hop hnorn
        · simp at h1
    · -- (d) error-free completion installs the full content
      intro hok _
      rw [htr, if_pos hok, runOps_append]
      have h1 : runOps fs0
          ((if existsFinal = true ∧ overwrite = true then [FsOp.unlink finalPath] else [])
            ++ [FsOp.unlink (finalPath ++ ".part"), FsOp.create (finalPath ++ ".part")]
            ++ chunks.map (FsOp.write (finalPath ++ ".part"))) (finalPath ++ ".part")
          = some chunks := by
        rw [runOps_append, runOps_append]
        have h2 : runOps (runOps fs0 (if existsFinal = true ∧ overwrite = true
              then [FsOp.unlink finalPath] else []))
            [FsOp.unlink (finalPath ++ ".part"), FsOp.create (finalPath ++ ".part")]
            (finalPath ++ ".part") = some [] := by
          simp [runOps, applyOp]
        rw [runOps_writes (finalPath ++ ".part") chunks _ [] h2]
        simp
      rw [show runOps (runOps fs0 ((if existsFinal = true ∧ overwrite = true
              then [FsOp.unlink finalPath] else [])
            ++ [FsOp.unlink (finalPath ++ ".part"), FsOp.create (finalPath ++ ".part")]
            ++ chunks.map (FsOp.write (finalPath ++ ".part"))))
          [FsOp.rename (finalPath ++ ".part") finalPath] finalPath
          = runOps fs0 ((if existsFinal = true ∧ overwrite = true
              then [FsOp.unlink finalPath] else [])
            ++ [FsOp.unlink (finalPath ++ ".part"), FsOp.create (finalPath ++ ".part")]
            ++ chunks.map (FsOp.write (finalPath ++ ".part"))) (finalPath ++ ".part") from by
          simp [runOps, applyOp]]
      exact h1

/-- Witness for C3 at a concrete trace: a rename-free prefix of a
successful download leaves the final path untouched or absent, and the
full trace installs the streamed chunks. -/
theorem streamDownloadAtomic_atomic_witness :
    (runOps (fun _ => none)
        ((streamDownloadAtomic "v.mp4" false false false [7, 8] true).take 3) "v.mp4"
      = (fun (_ : String) => (none : Option (List Nat))) "v.mp4" ∨
     runOps (fun _ => none)
        ((streamDownloadAtomic "v.mp4" false false false [7, 8] true).take 3) "v.mp4"
      = none)
    ∧ runOps (fun _ => none)
        (streamDownloadAtomic "v.mp4" false false false [7, 8] true) "v.mp4"
      = some [7, 8] :=
  ⟨(streamDownloadAtomic_atomic "v.mp4" false false false [7, 8] true
      (fun _ => none)).2.2.2.1 _ ( List.take_prefix 3 _) (by decide),
   (streamDownloadAtomic_atomic "v.mp4" false false false [7, 8] true
      (fun _ => none)).2.2.2.2 rfl (by simp)⟩

theorem lookupCache_insert_self (c : Cache) (sid : String) (eps : List String) :
    lookupCache (insertCache c sid eps) sid = some eps := by
  induction c with
  | nil => simp [insertCache, lookupCache]
  | cons kv rest ih =>
    obtain ⟨k, v⟩ := kv
    rw [insertCache]
    by_cases hk : k = sid
    · rw [if_pos hk, lookupCache, if_pos hk]
    · rw [if_neg hk, lookupCache, if_neg hk]
      exact ih

/-- A cached entry (caching enabled) short-circuits the loop body. -/
theorem expandOne_hit (env : Env) (cat : Catalog) (filters : Option (List Nat))
    (st : DiscState) (sid : String) (eps : List String)
    (h : lookupCache st.cache sid = some eps) :
    expandOne env cat false filters st sid = ⟨st.out ++ eps, st.cache, st.reqs⟩ := by
  unfold expandOne
  rw [h]

/-- A cache miss runs the strategies: the body appends some discovered
list, caches it deduplicated, and issues at least one request. -/
theorem expandOne_miss (env : Env) (cat : Catalog) (filters : Option (List Nat))
    (st : DiscState) (sid : String)
    (h : lookupCache st.cache sid = none) :
    ∃ eps reqs, expandOne env cat false filters st sid =
        ⟨st.out ++ eps, insertCache st.cache sid (setDedup eps), st.reqs + reqs⟩ ∧
      1 ≤ reqs := by
  unfold expandOne
  rw [h]
  refine ⟨_, _, rfl, ?_⟩
  unfold discoverEps
  dsimp only
  omega

theorem pad2_length {n : Option String} {s : String} (h : pad2 n = some s) :
    2 ≤ s.length := by
  simp only [pad2] at h
  split_ifs at h with h0 h2
  · rw [Option.some.injEq] at h
    subst h
    omega
  · rw [Option.some.injEq] at h
    subst h
    rw [String.length_append]
    have hrep : (String.mk (List.replicate (2 - (strTrim (n.getD "")).length) '0')).length
        = 2 - (strTrim (n.getD "")).length := by
      rw [String.length_mk, List.length_replicate]
    rw [hrep]
    have hne : (strTrim (n.getD "")).length ≠ 0 := by
      intro hc
      apply h0
      cases hs : strTrim (n.getD "") with
      | mk d =>
        rw [hs, String.length_mk, List.length_eq_zero] at hc
        rw [hc]
    omega

/-- The single-root cascade, written out through the fold. -/
theorem expand_single (env : Env) (cat : Catalog) (cache0 : Cache)
    (sid : String) (filters : Option (List Nat)) :
    expandSeriesToEpisodeIds env cat false cache0 [sid] filters =
      ⟨setDedup (expandOne env cat false filters ⟨[], cache0, 0⟩ sid).out,
        (expandOne env cat false filters ⟨[], cache0, 0⟩ sid).cache,
        (expandOne env cat false filters ⟨[], cache0, 0⟩ sid).reqs⟩ := by
  rfl

/--
C5: the Discovery Cascade is idempotent — with caching enabled, a second
`expandSeriesToEpisodeIds` call for the same root, against the cache the
first call left behind, returns the identical list in the same order and
issues zero catalog requests.
-/
theorem expand_idempotent (env : Env) (cat : Catalog) (cache0 : Cache)
    (sid : String) (filters : Option (List Nat)) :
    (expandSeriesToEpisodeIds env cat false
        (expandSeriesToEpisodeIds env cat false cache0 [sid] filters).cache
        [sid] filters).out
      = (expandSeriesToEpisodeIds env cat false cache0 [sid] filters).out
    ∧ (expandSeriesToEpisodeIds env cat false
        (expandSeriesToEpisodeIds env cat false cache0 [sid] filters).cache
        [sid] filters).reqs = 0 := by
  cases hl : lookupCache cache0 sid with
  | some eps =>
    have h1 : expandSeriesToEpisodeIds env cat false cache0 [sid] filters
        = ⟨setDedup eps, cache0, 0⟩ := by
      rw [expand_single, expandOne_hit env cat filters ⟨[], cache0, 0⟩ sid eps hl]
      simp
    rw [h1]
    have h2 : expandSeriesToEpisodeIds env cat false cache0 [sid] filters
        = ⟨setDedup eps, cache0, 0⟩ := h1
    rw [expand_single, expandOne_hit env cat filters ⟨[], cache0, 0⟩ sid eps hl]
    simp
  | none =>
    obtain ⟨eps, reqs, he, _⟩ :=
      expandOne_miss env cat filters ⟨[], cache0, 0⟩ sid hl
    have h1 : expandSeriesToEpisodeIds env cat false cache0 [sid] filters
        = ⟨setDedup eps, insertCache cache0 sid (setDedup eps), reqs⟩ := by
      rw [expand_single, he]
      simp
    rw [h1]
    have hl2 : lookupCache (insertCache cache0 sid (setDedup eps)) sid
        = some (setDedup eps) := lookupCache_insert_self cache0 sid (setDedup eps)
    rw [expand_single,
      expandOne_hit env cat filters ⟨[], insertCache cache0 sid (setDedup eps), 0⟩
        sid (setDedup eps) hl2]
    simp [setDedup_idem]

/--
C2 as amended: with caching enabled, the cascade short-circuits for a
root exactly when the cache file holds an entry for it — even an entry
with an empty episode list — returning that entry (deduplicated by the
final `new Set`) with zero catalog requests; only a root with no cached
entry runs the discovery strategies (at least the `videoSeason` request).
-/
theorem expand_cache_shortcircuit (env : Env) (cat : Catalog) (cache0 : Cache)
    (sid : String) (filters : Option (List Nat)) :
    (∀ eps, lookupCache cache0 sid = some eps →
      (expandSeriesToEpisodeIds env cat false cache0 [sid] filters).out = setDedup eps ∧
        (expandSeriesToEpisodeIds env cat false cache0 [sid] filters).reqs = 0)
    ∧ (lookupCache cache0 sid = none →
        1 ≤ (expandSeriesToEpisodeIds env cat false cache0 [sid] filters).reqs) := by
  constructor
  · intro eps hl
    rw [expand_single, expandOne_hit env cat filters ⟨[], cache0, 0⟩ sid eps hl]
    simp
  · intro hl
    obtain ⟨eps, reqs, he, hge⟩ :=
      expandOne_miss env cat filters ⟨[], cache0, 0⟩ sid hl
    rw [expand_single, he]
    simpa using hge

/-- Witness for the amended C2: a cached empty entry is returned verbatim
with zero requests; with no cached entry at least one request is made. -/
theorem expand_cache_shortcircuit_witness :
    ((expandSeriesToEpisodeIds cexEnvA cexCatA false [("3293", [])] ["3293"] none).out = setDedup []
      ∧ (expandSeriesToEpisodeIds cexEnvA cexCatA false [("3293", [])] ["3293"] none).reqs = 0)
    ∧ 1 ≤ (expandSeriesToEpisodeIds cexEnvA cexCatA false [] ["3293"] none).reqs :=
  ⟨(expand_cache_shortcircuit cexEnvA cexCatA [("3293", [])] "3293" none).1 [] rfl,
   (expand_cache_shortcircuit cexEnvA cexCatA [] "3293" none).2 rfl⟩

/--
Counterexample to C2 as stated: for root `3293` the cache holds an entry
whose episode list is empty, caching is enabled, and `videoSeason` would
deliver episode `10` — yet the cascade returns the empty cached list with
zero catalog requests, so the discovery strategies are not attempted
(JavaScript's `cache.series?.[sid]?.episodes` is truthy for `[]`).
-/
theorem expand_cache_empty_entry_cex :
    (expandSeriesToEpisodeIds cexEnvA cexCatA false [("3293", [])] ["3293"] none).out = []
    ∧ (expandSeriesToEpisodeIds cexEnvA cexCatA false [("3293", [])] ["3293"] none).reqs = 0
    ∧ (expandSeriesToEpisodeIds cexEnvA cexCatA false [] ["3293"] none).out = ["10"] := by
  refine ⟨rfl, rfl, ?_⟩
  rfl

theorem endpointLoop_none (env : Env) (cat : Catalog) (sid : String)
    (hB : env.seriesEpEndpoint = none) :
    ∀ (fs : List Nat) (acc : List String) (n : Nat),
      endpointLoop env cat sid fs acc n = (.ok acc, n) := by
  intro fs
  induction fs with
  | nil => intro acc n; rfl
  | cons s rest ih =>
    intro acc n
    rw [endpointLoop,
      show getEpisodesBySeries env cat sid (some s) = (.ok none, 0) by
        unfold getEpisodesBySeries; rw [hB]]
    simpa using ih acc n

/-- Without a configured endpoint template, strategy B yields nothing and
issues no request. -/
theorem discoverEpisodesByEndpoint_none (env : Env) (cat : Catalog)
    (sid : String) (filters : Option (List Nat))
    (hB : env.seriesEpEndpoint = none) :
    discoverEpisodesByEndpoint env cat sid filters = (.ok [], 0) := by
  unfold discoverEpisodesByEndpoint
  rw [endpointLoop_none env cat sid hB,
    show getEpisodesBySeries env cat sid none = (.ok none, 0) by
      unfold getEpisodesBySeries; rw [hB]]
  dsimp only
  split <;> rfl

/-- With no configured endpoint, the strategy pipeline's result is the
(non-empty) `videoSeason` normalization or the crawl result. -/
theorem discoverEps_cases (env : Env) (cat : Catalog) (sid : String)
    (filters : Option (List Nat)) (hB : env.seriesEpEndpoint = none) :
    (∃ vs, cat.videoSeason sid = .ok vs ∧
      (discoverEps env cat sid filters).1 = normalizeVideoSeasonItems vs filters)
    ∨ (discoverEps env cat sid filters).1
        = (discoverEpisodesByVideoGroups env cat sid filters).1 := by
  rw [discoverEps]
  cases hvs : cat.videoSeason sid with
  | error e =>
    right
    rw [discoverEpisodesByEndpoint_none env cat sid filters hB]
    simp
  | ok vs =>
    by_cases hne : (normalizeVideoSeasonItems vs filters).isEmpty
    · right
      rw [discoverEpisodesByEndpoint_none env cat sid filters hB]
      simp [hne]
    · left
      exact ⟨vs, rfl, by simp [hne]⟩

theorem keyLe_entryLe (a b : Entry) :
    keyLe (a.season, a.episode) (b.season, b.episode) = entryLe a b := rfl

/-- Ids mapped out of a `(season, episode)`-sorted entry list are sorted
by any key function agreeing with the entries. -/
theorem sorted_ids_of_entries (epKey : String → Nat × Nat) (es : List Entry)
    (hc : ∀ e ∈ es, epKey e.id = (e.season, e.episode)) :
    ((sortStable entryLe es).map (fun e => e.id)).Pairwise
      (fun a b => keyLe (epKey a) (epKey b) = true) := by
  rw [List.pairwise_map]
  have hp := sortStable_pairwise entryLe_total entryLe_trans es
  refine List.Pairwise.imp_of_mem ?_ hp
  intro a b ha hb hle
  have hca := hc a ((sortStable_perm entryLe es).mem_iff.1 ha)
  have hcb := hc b ((sortStable_perm entryLe es).mem_iff.1 hb)
  rw [hca, hcb, keyLe_entryLe]
  exact hle

theorem vsEntries_mem {items : List RawItem} {filters : Option (List Nat)}
    {e : Entry} (h : e ∈ vsEntries items filters) :
    ∃ it ∈ items, e = vsEntry it := by
  rw [vsEntries] at h
  have h1 := (List.mem_filter.1 h).1
  rcases List.mem_map.1 h1 with ⟨it, hit, rfl⟩
  exact ⟨it, (List.mem_filter.1 (List.mem_filter.1 hit).1).1, rfl⟩

theorem crawlAddItem_mem {sid : String} {filters : Option (List Nat)}
    {acc : List Entry} {it : RawItem} {e : Entry}
    (h : e ∈ crawlAddItem sid filters acc it) :
    e ∈ acc ∨ e = crawlEntry it := by
  rw [crawlAddItem] at h
  split_ifs at h
  all_goals try exact Or.inl h
  all_goals
    rcases List.mem_append.1 h with h2 | h2
    · exact Or.inl h2
    · exact Or.inr (List.mem_singleton.1 h2)

theorem foldl_crawlAddItem_mem {sid : String} {filters : Option (List Nat)} :
    ∀ (its : List RawItem) (acc : List Entry) (e : Entry),
      e ∈ its.foldl (crawlAddItem sid filters) acc →
      e ∈ acc ∨ ∃ it ∈ its, e = crawlEntry it := by
  intro its
  induction its with
  | nil => intro acc e h; exact Or.inl h
  | cons it rest ih =>
    intro acc e h
    rcases ih (crawlAddItem sid filters acc it) e h with h1 | ⟨it2, hit2, he⟩
    · rcases crawlAddItem_mem h1 with h2 | h2
      · exact Or.inl h2
      · exact Or.inr ⟨it, List.mem_cons_self it rest, h2⟩
    · exact Or.inr ⟨it2, List.mem_cons_of_mem it hit2, he⟩

theorem crawlAddGroups_mem {sid : String} {filters : Option (List Nat)} :
    ∀ (gs : List Group) (acc : List Entry) (e : Entry),
      e ∈ crawlAddGroups sid filters acc gs →
      e ∈ acc ∨ ∃ g ∈ gs, ∃ it ∈ g.content, e = crawlEntry it := by
  intro gs
  induction gs with
  | nil => intro acc e h; exact Or.inl h
  | cons g rest ih =>
    intro acc e h
    rw [crawlAddGroups, List.foldl_cons] at h
    rcases ih (g.content.foldl (crawlAddItem sid filters) acc) e h with h1 | ⟨g2, hg2, hrest⟩
    · rcases foldl_crawlAddItem_mem g.content acc e h1 with h2 | ⟨it, hit, he⟩
      · exact Or.inl h2
      · exact Or.inr ⟨g, List.mem_cons_self g rest, it, hit, he⟩
    · exact Or.inr ⟨g2, List.mem_cons_of_mem g hg2, hrest⟩

theorem crawlFold_mem {cat : Catalog} {sid : String} {filters : Option (List Nat)} :
    ∀ (ps : List (String × String)) (acc : List Entry) (e : Entry),
      e ∈ ps.foldl (crawlStep cat sid filters) acc →
      e ∈ acc ∨ ∃ p ∈ ps, ∃ gs, cat.videoGroups p.1 p.2 = .ok gs ∧
        ∃ g ∈ gs, ∃ it ∈ g.content, e = crawlEntry it := by
  intro ps
  induction ps with
  | nil => intro acc e h; exact Or.inl h
  | cons p rest ih =>
    intro acc e h
    rw [List.foldl_cons] at h
    rcases ih (crawlStep cat sid filters acc p) e h with h1 | ⟨p2, hp2, hrest⟩
    · rw [crawlStep] at h1
      revert h1
      cases hg : cat.videoGroups p.1 p.2 with
      | error e2 => intro h1; exact Or.inl h1
      | ok gs =>
        intro h1
        rcases crawlAddGroups_mem gs acc e h1 with h2 | ⟨g, hgmem, it, hit, he⟩
        · exact Or.inl h2
        · exact Or.inr ⟨p, List.mem_cons_self p rest, gs, hg, g, hgmem, it, hit, he⟩
    · exact Or.inr ⟨p2, List.mem_cons_of_mem p hp2, hrest⟩

/--
C1 as amended: the Discovery Cascade output is always deduplicated — for
every environment (a configured endpoint template included), cache
contents, cache mode and root list, since the return value is
`[...new Set(out)]`; and for an uncached root, when no external endpoint
template is configured (strategy B unavailable, so the result comes from
`videoSeason` or the crawl), it is additionally sorted ascending by the
`(season, episode)` key the catalog reports for each identifier.
-/
theorem expand_sorted_dedup (env : Env) (cat : Catalog) (noCache : Bool)
    (cache0 : Cache) (sids : List String) (sid : String)
    (filters : Option (List Nat)) (epKey : String → Nat × Nat) :
    (expandSeriesToEpisodeIds env cat noCache cache0 sids filters).out.Nodup
    ∧ (env.seriesEpEndpoint = none →
        lookupCache cache0 sid = none →
        (∀ vs, cat.videoSeason sid = .ok vs → ∀ it ∈ vs,
          epKey (strTrim (it.nb.getD "")) = (it.season.getD 0, it.episodeNummer.getD 0)) →
        (∀ l v gs, cat.videoGroups l v = .ok gs → ∀ g ∈ gs, ∀ it ∈ g.content,
          epKey (it.nb.getD "") = (it.season.getD 0, it.episodeNummer.getD 0)) →
        (expandSeriesToEpisodeIds env cat false cache0 [sid] filters).out.Pairwise
          (fun a b => keyLe (epKey a) (epKey b) = true)) := by
  constructor
  · -- deduplication holds unconditionally: the returned `.out` is a
    -- `setDedup` image whatever the strategies produced
    exact setDedup_nodup _
  · intro hB hmiss hA hC
    obtain ⟨eps, reqs, he, _⟩ := expandOne_miss env cat filters ⟨[], cache0, 0⟩ sid hmiss
    have hout : (expandSeriesToEpisodeIds env cat false cache0 [sid] filters).out
        = setDedup eps := by
      rw [expand_single, he]
      simp
    have heps : eps = (discoverEps env cat sid filters).1 := by
      have he2 := he
      unfold expandOne at he2
      rw [hmiss] at he2
      have := congrArg DiscState.out he2
      simp at this
      exact this.symm
    rw [hout]
    have hsorted : eps.Pairwise (fun a b => keyLe (epKey a) (epKey b) = true) := by
      rw [heps]
      rcases discoverEps_cases env cat sid filters hB with ⟨vs, hvs, hres⟩ | hres
      · rw [hres, normalizeVideoSeasonItems]
        refine sorted_ids_of_entries epKey (vsEntries vs filters) ?_
        intro e hmem
        obtain ⟨it, hit, rfl⟩ := vsEntries_mem hmem
        exact hA vs hvs it hit
      · rw [hres, discoverEpisodesByVideoGroups]
        refine sorted_ids_of_entries epKey _ ?_
        intro e hmem
        rcases crawlFold_mem (crawlPairs env) [] e hmem with h | ⟨p, _, gs, hg, g, hgm, it, hit, he3⟩
        · simp at h
        · rw [he3]
          exact hC p.1 p.2 gs hg g hgm it hit
    exact hsorted.sublist (setDedup_sublist eps)

/-- Witness for the amended C1: deduplication at a configured-endpoint
(strategy B) environment, and `(season, episode)`-sortedness of a
two-episode `videoSeason` response. -/
theorem expand_sorted_dedup_witness :
    (expandSeriesToEpisodeIds cexEnvB cexCatB false [] ["3293"] none).out.Nodup
    ∧ (expandSeriesToEpisodeIds cexEnvA cexCatA false [] ["3293"] none).out.Pairwise
        (fun a b => keyLe (cexKey a) (cexKey b) = true) :=
  ⟨(expand_sorted_dedup cexEnvB cexCatB false [] ["3293"] "3293" none cexKey).1,
   (expand_sorted_dedup cexEnvA cexCatA false [] ["3293"] "3293" none cexKey).2
    rfl rfl
    (by
      intro vs hvs it hit
      have hv : vs = [cexItem "10" 1 1 "3293"] := by
        have := hvs.symm
        simpa [cexCatA] using this
      rw [hv] at hit
      rcases List.mem_singleton.1 hit with rfl
      rfl)
    (by
      intro l v gs hg g hgm it hit
      simp [cexCatA] at hg)⟩

/--
Counterexample to C1 as stated: with `videoSeason` empty and a configured
endpoint whose response lists root `3293`'s episodes as `20` (season 2,
episode 1) then `10` (season 1, episode 1), the cascade returns
`["20", "10"]` — strategy B deduplicates but does not sort, so the output
is not ascending in the `(season, episode)` key those very response items
carry.
-/
theorem expand_endpoint_unsorted_cex :
    (expandSeriesToEpisodeIds cexEnvB cexCatB false [] ["3293"] none).out = ["20", "10"]
    ∧ cexCatB.seriesEpisodes "3293" none
        = .ok (some [cexItem "20" 2 1 "3293", cexItem "10" 1 1 "3293"])
    ∧ cexKey "20" = (2, 1) ∧ cexKey "10" = (1, 1)
    ∧ ¬ ((expandSeriesToEpisodeIds cexEnvB cexCatB false [] ["3293"] none).out.Pairwise
          (fun a b => keyLe (cexKey a) (cexKey b) = true)) := by
  refine ⟨rfl, rfl, rfl, rfl, ?_⟩
  intro h
  have hout : (expandSeriesToEpisodeIds cexEnvB cexCatB false [] ["3293"] none).out
      = ["20", "10"] := rfl
  rw [hout] at h
  have := (List.pairwise_cons.1 h).1 "10" (List.mem_singleton.2 rfl)
  simp [keyLe, cexKey] at this

theorem crawlAddItem_idNodup {sid : String} {filters : Option (List Nat)}
    {acc : List Entry} {it : RawItem}
    (h : (acc.map (fun e => e.id)).Nodup) :
    ((crawlAddItem sid filters acc it).map (fun e => e.id)).Nodup := by
  rw [crawlAddItem]
  split_ifs with h1 h2 h3 h4 h5
  any_goals exact h
  rw [List.map_append]
  rw [List.nodup_append]
  refine ⟨h, by simp, ?_⟩
  intro a ha hb
  simp only [crawlEntry, List.map_cons, List.map_nil, List.mem_singleton] at hb
  rcases List.mem_map.1 ha with ⟨e, he, rfl⟩
  apply h5
  rw [List.any_eq_true]
  exact ⟨e, he, by simp [hb]⟩

theorem foldl_crawlAddItem_idNodup {sid : String} {filters : Option (List Nat)} :
    ∀ (its : List RawItem) (acc : List Entry),
      (acc.map (fun e => e.id)).Nodup →
      ((its.foldl (crawlAddItem sid filters) acc).map (fun e => e.id)).Nodup := by
  intro its
  induction its with
  | nil => intro acc h; exact h
  | cons it rest ih =>
    intro acc h
    exact ih (crawlAddItem sid filters acc it) (crawlAddItem_idNodup h)

theorem crawlAddGroups_idNodup {sid : String} {filters : Option (List Nat)} :
    ∀ (gs : List Group) (acc : List Entry),
      (acc.map (fun e => e.id)).Nodup →
      ((crawlAddGroups sid filters acc gs).map (fun e => e.id)).Nodup := by
  intro gs
  induction gs with
  | nil => intro acc h; exact h
  | cons g rest ih =>
    intro acc h
    rw [crawlAddGroups, List.foldl_cons]
    exact ih _ (foldl_crawlAddItem_idNodup g.content acc h)

theorem crawlFold_idNodup {cat : Catalog} {sid : String} {filters : Option (List Nat)} :
    ∀ (ps : List (String × String)) (acc : List Entry),
      (acc.map (fun e => e.id)).Nodup →
      ((ps.foldl (crawlStep cat sid filters) acc).map (fun e => e.id)).Nodup := by
  intro ps
  induction ps with
  | nil => intro acc h; exact h
  | cons p rest ih =>
    intro acc h
    rw [List.foldl_cons]
    refine ih _ ?_
    rw [crawlStep]
    cases cat.videoGroups p.1 p.2 with
    | error e => exact h
    | ok gs => exact crawlAddGroups_idNodup gs acc h

theorem crawlAddItem_subset {sid : String} {filters : Option (List Nat)}
    {acc : List Entry} {it : RawItem} :
    acc ⊆ crawlAddItem sid filters acc it := by
  intro a h
  rw [crawlAddItem]
  split_ifs
  any_goals exact h
  exact List.mem_append.2 (Or.inl h)

theorem foldl_crawlAddItem_subset {sid : String} {filters : Option (List Nat)} :
    ∀ (its : List RawItem) (acc : List Entry),
      acc ⊆ its.foldl (crawlAddItem sid filters) acc := by
  intro its
  induction its with
  | nil => intro acc a h; exact h
  | cons it rest ih =>
    intro acc a h
    exact ih (crawlAddItem sid filters acc it) (crawlAddItem_subset h)

theorem crawlAddGroups_subset {sid : String} {filters : Option (List Nat)} :
    ∀ (gs : List Group) (acc : List Entry),
      acc ⊆ crawlAddGroups sid filters acc gs := by
  intro gs
  induction gs with
  | nil => intro acc a h; exact h
  | cons g rest ih =>
    intro acc a h
    rw [crawlAddGroups, List.foldl_cons]
    exact ih _ (foldl_crawlAddItem_subset g.content acc h)

theorem crawlFold_subset {cat : Catalog} {sid : String} {filters : Option (List Nat)} :
    ∀ (ps : List (String × String)) (acc : List Entry),
      acc ⊆ ps.foldl (crawlStep cat sid filters) acc := by
  intro ps
  induction ps with
  | nil => intro acc a h; exact h
  | cons p rest ih =>
    intro acc a h
    rw [List.foldl_cons]
    refine ih _ ?_
    rw [crawlStep]
    cases cat.videoGroups p.1 p.2 with
    | error e => exact h
    | ok gs => exact crawlAddGroups_subset gs acc h

/-- A matching crawl item leaves its identifier present in the map. -/
theorem crawlAddItem_id_mem {sid : String} {filters : Option (List Nat)}
    {acc : List Entry} {it : RawItem}
    (hk : it.kind.getD "" = "2") (hroot : it.rootSeries.getD "" = sid)
    (hid : it.nb.getD "" ≠ "")
    (hs : crawlSeasonPass filters (it.season.getD 0) = true) :
    it.nb.getD "" ∈ (crawlAddItem sid filters acc it).map (fun e => e.id) := by
  rw [crawlAddItem, if_neg (fun hne => hne hk), if_neg (fun hne => hne hroot),
    if_neg hid, if_neg (fun hne => hne hs)]
  by_cases h5 : (acc.any fun e => e.id = it.nb.getD "") = true
  · rw [if_pos h5]
    rw [List.any_eq_true] at h5
    obtain ⟨e, he, heq⟩ := h5
    simp only [decide_eq_true_eq] at heq
    exact List.mem_map.2 ⟨e, he, heq⟩
  · rw [if_neg h5, List.map_append]
    exact List.mem_append.2 (Or.inr (by simp [crawlEntry]))

theorem id_mem_of_subset {acc₁ acc₂ : List Entry} {i : String}
    (hsub : acc₁ ⊆ acc₂) (h : i ∈ acc₁.map (fun e => e.id)) :
    i ∈ acc₂.map (fun e => e.id) := by
  rcases List.mem_map.1 h with ⟨e, he, rfl⟩
  exact List.mem_map.2 ⟨e, hsub he, rfl⟩

theorem foldl_crawlAddItem_reach {sid : String} {filters : Option (List Nat)}
    {it : RawItem}
    (hk : it.kind.getD "" = "2") (hroot : it.rootSeries.getD "" = sid)
    (hid : it.nb.getD "" ≠ "")
    (hs : crawlSeasonPass filters (it.season.getD 0) = true) :
    ∀ (its : List RawItem) (acc : List Entry), it ∈ its →
      it.nb.getD "" ∈ (its.foldl (crawlAddItem sid filters) acc).map (fun e => e.id) := by
  intro its
  induction its with
  | nil => intro acc h; simp at h
  | cons j rest ih =>
    intro acc h
    rw [List.foldl_cons]
    rcases List.mem_cons.1 h with rfl | h
    · exact id_mem_of_subset (foldl_crawlAddItem_subset rest _)
        (crawlAddItem_id_mem hk hroot hid hs)
    · exact ih _ h

theorem crawlAddGroups_reach {sid : String} {filters : Option (List Nat)}
    {it : RawItem} {g : Group}
    (hk : it.kind.getD "" = "2") (hroot : it.rootSeries.getD "" = sid)
    (hid : it.nb.getD "" ≠ "")
    (hs : crawlSeasonPass filters (it.season.getD 0) = true)
    (hit : it ∈ g.content) :
    ∀ (gs : List Group) (acc : List Entry), g ∈ gs →
      it.nb.getD "" ∈ (crawlAddGroups sid filters acc gs).map (fun e => e.id) := by
  intro gs
  induction gs with
  | nil => intro acc h; simp at h
  | cons g2 rest ih =>
    intro acc h
    rw [crawlAddGroups, List.foldl_cons]
    rcases List.mem_cons.1 h with rfl | h
    · rw [show (List.foldl (fun a g3 => g3.content.foldl (crawlAddItem sid filters) a)
          (g.content.foldl (crawlAddItem sid filters) acc) rest)
          = crawlAddGroups sid filters (g.content.foldl (crawlAddItem sid filters) acc) rest
          from rfl]
      exact id_mem_of_subset (crawlAddGroups_subset rest _)
        (foldl_crawlAddItem_reach hk hroot hid hs g.content acc hit)
    · exact ih _ h

theorem crawlFold_reach {cat : Catalog} {sid : String} {filters : Option (List Nat)}
    {it : RawItem} {g : Group} {gs : List Group} {l v : String}
    (hk : it.kind.getD "" = "2") (hroot : it.rootSeries.getD "" = sid)
    (hid : it.nb.getD "" ≠ "")
    (hs : crawlSeasonPass filters (it.season.getD 0) = true)
    (hit : it ∈ g.content) (hg : g ∈ gs)
    (hok : cat.videoGroups l v = .ok gs) :
    ∀ (ps : List (String × String)) (acc : List Entry), (l, v) ∈ ps →
      it.nb.getD "" ∈ (ps.foldl (crawlStep cat sid filters) acc).map (fun e => e.id) := by
  intro ps
  induction ps with
  | nil => intro acc h; simp at h
  | cons p rest ih =>
    intro acc h
    rw [List.foldl_cons]
    rcases List.mem_cons.1 h with heq | h
    · refine id_mem_of_subset (crawlFold_subset rest _) ?_
      rw [crawlStep, ← heq, hok]
      exact crawlAddGroups_reach hk hroot hid hs hit gs acc hg
    · exact ih _ h

/-- The catalog with one `(lang, level)` group query replaced by an
empty success. -/
def catOverride (cat : Catalog) (l0 v0 : String) : Catalog :=
  { cat with videoGroups := fun l v =>
      if l = l0 ∧ v = v0 then .ok [] else cat.videoGroups l v }

theorem crawlFold_override {cat : Catalog} {sid : String}
    {filters : Option (List Nat)} {l0 v0 : String} {err : String}
    (hfail : cat.videoGroups l0 v0 = .error err) :
    ∀ (ps : List (String × String)) (acc : List Entry),
      ps.foldl (crawlStep cat sid filters) acc
        = ps.foldl (crawlStep (catOverride cat l0 v0) sid filters) acc := by
  intro ps
  induction ps with
  | nil => intro acc; rfl
  | cons p rest ih =>
    intro acc
    rw [List.foldl_cons, List.foldl_cons, ih]
    congr 1
    rw [crawlStep, crawlStep]
    by_cases hp : p.1 = l0 ∧ p.2 = v0
    · rw [show (catOverride cat l0 v0).videoGroups p.1 p.2 = .ok [] by
        rw [catOverride]
        simp only
        rw [if_pos hp]]
      rw [hp.1, hp.2, hfail]
      rfl
    · rw [show (catOverride cat l0 v0).videoGroups p.1 p.2 = cat.videoGroups p.1 p.2 by
        rw [catOverride]
        simp only
        rw [if_neg hp]]

/--
C6: the crawl fallback's output never contains an identifier twice, so
one found under several `(language, level)` pairs appears exactly once;
a matching item in any successful group query does appear; and the
failure of a single `(language, level)` query is swallowed — the crawl
behaves exactly as if that query had returned no groups, leaving the
items collected from the other pairs untouched.
-/
theorem crawl_dedup_and_swallow (env : Env) (cat : Catalog) (sid : String)
    (filters : Option (List Nat)) (l0 v0 err : String)
    (hfail : cat.videoGroups l0 v0 = .error err) :
    (discoverEpisodesByVideoGroups env cat sid filters).1.Nodup
    ∧ (∀ i ∈ (discoverEpisodesByVideoGroups env cat sid filters).1,
        (discoverEpisodesByVideoGroups env cat sid filters).1.count i = 1)
    ∧ discoverEpisodesByVideoGroups env cat sid filters
        = discoverEpisodesByVideoGroups env (catOverride cat l0 v0) sid filters
    ∧ (∀ l v gs g it, (l, v) ∈ crawlPairs env → cat.videoGroups l v = .ok gs →
        g ∈ gs → it ∈ g.content → it.kind.getD "" = "2" →
        it.rootSeries.getD "" = sid → it.nb.getD "" ≠ "" →
        crawlSeasonPass filters (it.season.getD 0) = true →
        it.nb.getD "" ∈ (discoverEpisodesByVideoGroups env cat sid filters).1) := by
  have hnodup : (discoverEpisodesByVideoGroups env cat sid filters).1.Nodup := by
    rw [discoverEpisodesByVideoGroups]
    have hperm : (sortStable entryLe
          ((crawlPairs env).foldl (crawlStep cat sid filters) [])).map (fun e => e.id)
        ~ ((crawlPairs env).foldl (crawlStep cat sid filters) []).map (fun e => e.id) :=
      (sortStable_perm entryLe _).map (fun e => e.id)
    rw [hperm.nodup_iff]
    exact crawlFold_idNodup (crawlPairs env) [] (by simp)
  refine ⟨hnodup, ?_, ?_, ?_⟩
  · intro i hi
    exact List.count_eq_one_of_mem hnodup hi
  · rw [discoverEpisodesByVideoGroups, discoverEpisodesByVideoGroups,
      crawlFold_override hfail]
  · intro l v gs g it hp hok hg hit hk hroot hid hs
    rw [discoverEpisodesByVideoGroups]
    have := crawlFold_reach hk hroot hid hs hit hg hok (crawlPairs env) [] hp
    have hperm : (sortStable entryLe
          ((crawlPairs env).foldl (crawlStep cat sid filters) [])).map (fun e => e.id)
        ~ ((crawlPairs env).foldl (crawlStep cat sid filters) []).map (fun e => e.id) :=
      (sortStable_perm entryLe _).map (fun e => e.id)
    exact hperm.mem_iff.2 this

/-- No configured endpoint; pairs `ar/0`, `en/0`, `fr/0`. -/
def cexEnvC : Env := ⟨none, none, ["ar", "en", "fr"], ["0"]⟩

/-- A catalog where identifier `7` appears under both `(ar, 0)` and
`(en, 0)` and the `(fr, 0)` query fails. -/
def cexCatC : Catalog :=
  ⟨fun _ => .error "down", fun _ _ => .ok none,
   fun l v =>
     if l = "ar" ∧ v = "0" then .ok [⟨[cexItem "7" 1 2 "3293"]⟩]
     else if l = "en" ∧ v = "0" then
       .ok [⟨[cexItem "7" 1 2 "3293", cexItem "5" 1 1 "3293"]⟩]
     else .error "down"⟩

/-- Witness for C6: concrete crawl with a duplicated identifier and one
failing pair — deduplicated output, failure equivalent to an empty
response, and the duplicated identifier present. -/
theorem crawl_dedup_and_swallow_witness :
    (discoverEpisodesByVideoGroups cexEnvC cexCatC "3293" none).1.Nodup
    ∧ discoverEpisodesByVideoGroups cexEnvC cexCatC "3293" none
        = discoverEpisodesByVideoGroups cexEnvC (catOverride cexCatC "fr" "0") "3293" none
    ∧ "7" ∈ (discoverEpisodesByVideoGroups cexEnvC cexCatC "3293" none).1 :=
  ⟨(crawl_dedup_and_swallow cexEnvC cexCatC "3293" none "fr" "0" "down" rfl).1,
   (crawl_dedup_and_swallow cexEnvC cexCatC "3293" none "fr" "0" "down" rfl).2.2.1,
   (crawl_dedup_and_swallow cexEnvC cexCatC "3293" none "fr" "0" "down" rfl).2.2.2
     "ar" "0" [⟨[cexItem "7" 1 2 "3293"]⟩] ⟨[cexItem "7" 1 2 "3293"]⟩
     (cexItem "7" 1 2 "3293") (by decide) rfl (by decide) (by decide)
     rfl rfl (by decide) rfl⟩

/-- First bucket for a language key in the insertion-ordered map. -/
def bucketOf : List (String × List SubSel) → String → List SubSel
  | [], _ => []
  | (k, l) :: rest, lg => if k = lg then l else bucketOf rest lg

theorem bucketOf_insertByLang (lang : String) (s : SubSel) :
    ∀ (m : List (String × List SubSel)) (lg : String),
      bucketOf (insertByLang lang s m) lg =
        if lg = lang then bucketOf m lg ++ [s] else bucketOf m lg := by
  intro m
  induction m with
  | nil =>
    intro lg
    by_cases h : lg = lang
    · subst h
      simp [insertByLang, bucketOf]
    · rw [if_neg h, insertByLang]
      simp [bucketOf, Ne.symm h]
  | cons kv rest ih =>
    obtain ⟨k, l⟩ := kv
    intro lg
    rw [insertByLang]
    by_cases hk : k = lang
    · subst hk
      rw [if_pos rfl]
      by_cases hlg : lg = k
      · subst hlg
        simp [bucketOf]
      · simp [bucketOf, hlg, Ne.symm hlg]
    · rw [if_neg hk]
      by_cases hlg : k = lg
      · subst hlg
        simp [bucketOf, hk]
      · simp [bucketOf, hlg, ih lg]

theorem bucketOf_groupFold (wl : Option (List String)) :
    ∀ (ts : List RawTrack) (m : List (String × List SubSel)) (lg : String),
      bucketOf (ts.foldl (groupStep wl) m) lg
        = bucketOf m lg ++ (ts.filterMap (survivorSel wl)).filter
            (fun x => x.lang = lg) := by
  intro ts
  induction ts with
  | nil => intro m lg; simp
  | cons t rest ih =>
    intro m lg
    rw [List.foldl_cons, ih]
    rw [groupStep]
    cases hsel : survivorSel wl t with
    | none => rw [List.filterMap_cons_none hsel]
    | some s =>
      rw [List.filterMap_cons_some hsel, bucketOf_insertByLang]
      by_cases hlg : lg = s.lang
      · rw [if_pos hlg, List.filter_cons_of_pos (by simp [hlg.symm])]
        simp
      · rw [if_neg hlg, List.filter_cons_of_neg
          (by simp only [decide_eq_true_eq]; exact fun h => hlg h.symm)]

theorem mem_keys_insertByLang {lang : String} {s : SubSel} :
    ∀ {m : List (String × List SubSel)} {a : String},
      a ∈ (insertByLang lang s m).map Prod.fst ↔ a ∈ m.map Prod.fst ∨ a = lang := by
  intro m
  induction m with
  | nil => intro a; simp [insertByLang]
  | cons kv rest ih =>
    obtain ⟨k, l⟩ := kv
    intro a
    rw [insertByLang]
    by_cases hk : k = lang
    · subst hk
      rw [if_pos rfl]
      simp only [List.map_cons, List.mem_cons]
      constructor
      · rintro (h | h)
        · exact Or.inl (Or.inl h)
        · exact Or.inl (Or.inr h)
      · rintro ((h | h) | h)
        · exact Or.inl h
        · exact Or.inr h
        · exact Or.inl h
    · rw [if_neg hk]
      simp only [List.map_cons, List.mem_cons, ih]
      tauto

theorem keys_nodup_insertByLang {lang : String} {s : SubSel} :
    ∀ {m : List (String × List SubSel)},
      (m.map Prod.fst).Nodup → ((insertByLang lang s m).map Prod.fst).Nodup := by
  intro m
  induction m with
  | nil => intro _; simp [insertByLang]
  | cons kv rest ih =>
    obtain ⟨k, l⟩ := kv
    intro h
    rw [insertByLang]
    by_cases hk : k = lang
    · rw [if_pos hk]
      simpa using h
    · rw [if_neg hk]
      rw [List.map_cons, List.nodup_cons] at h ⊢
      refine ⟨fun hmem => ?_, ih h.2⟩
      rcases mem_keys_insertByLang.1 hmem with hmem | hmem
      · exact h.1 hmem
      · exact hk hmem

theorem langInv_insertByLang {lang : String} {s : SubSel} (hs : s.lang = lang) :
    ∀ {m : List (String × List SubSel)},
      (∀ kv ∈ m, ∀ x ∈ kv.2, x.lang = kv.1) →
      (∀ kv ∈ insertByLang lang s m, ∀ x ∈ kv.2, x.lang = kv.1) := by
  intro m
  induction m with
  | nil =>
    intro _ kv hkv x hx
    rw [insertByLang] at hkv
    rcases List.mem_singleton.1 hkv with rfl
    rcases List.mem_singleton.1 hx with rfl
    exact hs
  | cons kv0 rest ih =>
    obtain ⟨k, l⟩ := kv0
    intro h kv hkv x hx
    rw [insertByLang] at hkv
    by_cases hk : k = lang
    · rw [if_pos hk] at hkv
      rcases List.mem_cons.1 hkv with rfl | hkv
      · rcases List.mem_append.1 hx with hx | hx
        · exact h (k, l) (List.mem_cons_self _ _) x hx
        · rcases List.mem_singleton.1 hx with rfl
          exact hs.trans hk.symm
      · exact h kv (List.mem_cons_of_mem _ hkv) x hx
    · rw [if_neg hk] at hkv
      rcases List.mem_cons.1 hkv with rfl | hkv
      · exact h (k, l) (List.mem_cons_self _ _) x hx
      · exact ih (fun kv2 hkv2 => h kv2 (List.mem_cons_of_mem _ hkv2)) kv hkv x hx

theorem groupFold_inv (wl : Option (List String)) :
    ∀ (ts : List RawTrack) (m : List (String × List SubSel)),
      (m.map Prod.fst).Nodup → (∀ kv ∈ m, ∀ x ∈ kv.2, x.lang = kv.1) →
      ((ts.foldl (groupStep wl) m).map Prod.fst).Nodup ∧
        (∀ kv ∈ ts.foldl (groupStep wl) m, ∀ x ∈ kv.2, x.lang = kv.1) := by
  intro ts
  induction ts with
  | nil => intro m h1 h2; exact ⟨h1, h2⟩
  | cons t rest ih =>
    intro m h1 h2
    rw [List.foldl_cons]
    refine ih (groupStep wl m t) ?_ ?_
    · rw [groupStep]
      cases survivorSel wl t with
      | none => exact h1
      | some s => exact keys_nodup_insertByLang h1
    · rw [groupStep]
      cases survivorSel wl t with
      | none => exact h2
      | some s => exact langInv_insertByLang rfl h2

theorem pickFromBucket_nil (pref : String) : pickFromBucket pref [] = [] := by
  unfold pickFromBucket
  split <;> rfl

theorem pickFromBucket_subset (pref : String) (l : List SubSel) :
    pickFromBucket pref l ⊆ l := by
  unfold pickFromBucket
  split
  · exact fun a h => h
  · cases l with
    | nil => exact fun a h => h
    | cons x xs =>
      intro a ha
      rcases List.mem_singleton.1 ha with rfl
      cases hf : (x :: xs).find? (fun y => y.ext == pref) with
      | none => simp
      | some y => simpa using List.mem_of_find?_eq_some hf

theorem flatten_filter_picks (pref lg : String) :
    ∀ (m : List (String × List SubSel)),
      (m.map Prod.fst).Nodup → (∀ kv ∈ m, ∀ x ∈ kv.2, x.lang = kv.1) →
      ((m.map (fun kv => pickFromBucket pref kv.2)).flatten).filter
          (fun x => x.lang = lg)
        = pickFromBucket pref (bucketOf m lg) := by
  intro m
  induction m with
  | nil =>
    intro _ _
    rw [bucketOf, pickFromBucket_nil]
    rfl
  | cons kv rest ih =>
    obtain ⟨k, l⟩ := kv
    intro h1 h2
    rw [List.map_cons, List.nodup_cons] at h1
    rw [List.map_cons, List.flatten_cons, List.filter_append, bucketOf]
    have hrest := ih h1.2
      (fun kv2 hkv2 => h2 kv2 (List.mem_cons_of_mem _ hkv2))
    by_cases hk : k = lg
    · rw [if_pos hk]
      have hall : (pickFromBucket pref l).filter (fun x => x.lang = lg)
          = pickFromBucket pref l := by
        rw [List.filter_eq_self]
        intro a ha
        have := h2 (k, l) (List.mem_cons_self _ _) a (pickFromBucket_subset pref l ha)
        simp [this, hk]
      have hnil : bucketOf rest lg = [] := by
        have hko : lg ∉ rest.map Prod.fst := by
          rw [← hk]
          exact h1.1
        clear hrest ih h1 h2 hall
        induction rest with
        | nil => rfl
        | cons kv2 rest2 ih2 =>
          obtain ⟨k2, l2⟩ := kv2
          rw [bucketOf]
          rw [List.map_cons, List.mem_cons] at hko
          rw [if_neg (fun hh => hko (Or.inl hh.symm))]
          exact ih2 (fun hh => hko (Or.inr hh))
      rw [hrest, hnil, pickFromBucket_nil, List.append_nil, hall]
    · rw [if_neg hk]
      have hnone : (pickFromBucket pref l).filter (fun x => x.lang = lg) = [] := by
        rw [List.filter_eq_nil_iff]
        intro a ha
        have := h2 (k, l) (List.mem_cons_self _ _) a (pickFromBucket_subset pref l ha)
        simp [this, hk]
      rw [hnone, List.nil_append, hrest]

/--
C10 (implicit): per requested language, `filterSubtitleTracks` emits
exactly `pickFromBucket` of that language's surviving tracks — so with a
format preference other than `both` it keeps at most one track per
language tag (the preferred-format match if present, otherwise the first
surviving track of the language), and with `both` it keeps every
surviving track of each requested language.
-/
theorem filterSubtitleTracks_per_lang (tracks : List RawTrack)
    (langCsv : Option String) (pref : String) :
    (∀ lg, (filterSubtitleTracks tracks langCsv pref).filter (fun x => x.lang = lg)
        = pickFromBucket pref ((survivors (parseLangCsv langCsv) tracks).filter
            (fun x => x.lang = lg)))
    ∧ (pref ≠ "both" → ∀ lg,
        ((filterSubtitleTracks tracks langCsv pref).filter
            (fun x => x.lang = lg)).length ≤ 1)
    ∧ (pref = "both" → ∀ lg,
        (filterSubtitleTracks tracks langCsv pref).filter (fun x => x.lang = lg)
          = (survivors (parseLangCsv langCsv) tracks).filter (fun x => x.lang = lg)) := by
  have hmain : ∀ lg,
      (filterSubtitleTracks tracks langCsv pref).filter (fun x => x.lang = lg)
        = pickFromBucket pref ((survivors (parseLangCsv langCsv) tracks).filter
            (fun x => x.lang = lg)) := by
    intro lg
    have hinv := groupFold_inv (parseLangCsv langCsv) tracks [] (by simp) (by simp)
    have hb : bucketOf (groupByLang (parseLangCsv langCsv) tracks) lg
        = (survivors (parseLangCsv langCsv) tracks).filter (fun x => x.lang = lg) := by
      rw [groupByLang, bucketOf_groupFold, bucketOf]
      rfl
    rw [filterSubtitleTracks]
    rw [flatten_filter_picks pref lg (groupByLang (parseLangCsv langCsv) tracks)
      hinv.1 hinv.2, hb]
  refine ⟨hmain, ?_, ?_⟩
  · intro hpref lg
    rw [hmain lg]
    unfold pickFromBucket
    rw [if_neg hpref]
    split <;> simp
  · intro hpref lg
    rw [hmain lg]
    unfold pickFromBucket
    rw [if_pos hpref]

/-- Witness for C10 at concrete tracks: two Arabic tracks in different
formats collapse to the preferred-format one under `srt`, and are both
kept under `both`. -/
theorem filterSubtitleTracks_per_lang_witness :
    ((filterSubtitleTracks
        [⟨some "http://x/a.vtt", some "AR", none⟩, ⟨some "http://x/b.srt", some "ar", none⟩]
        none "srt").filter (fun x => x.lang = "ar")).length ≤ 1
    ∧ (filterSubtitleTracks
        [⟨some "http://x/a.vtt", some "AR", none⟩, ⟨some "http://x/b.srt", some "ar", none⟩]
        none "both").filter (fun x => x.lang = "ar")
      = (survivors (parseLangCsv none)
          [⟨some "http://x/a.vtt", some "AR", none⟩, ⟨some "http://x/b.srt", some "ar", none⟩]).filter
          (fun x => x.lang = "ar") :=
  ⟨(filterSubtitleTracks_per_lang
      [⟨some "http://x/a.vtt", some "AR", none⟩, ⟨some "http://x/b.srt", some "ar", none⟩]
      none "srt").2.1 (by decide) "ar",
   (filterSubtitleTracks_per_lang
      [⟨some "http://x/a.vtt", some "AR", none⟩, ⟨some "http://x/b.srt", some "ar", none⟩]
      none "both").2.2 rfl "ar"⟩

/--
C4: for every non-empty quality-variant list containing no variant whose
name equals the preferred name, `pickQuality` returns the variant of
maximal parsed resolution — the last of the equal-maximum group in input
order (`lastMaxBy resLe`, the spec's description) — so an unparsable
label (resolution -1) never outranks any parsed one (resolution ≥ 0).
-/
theorem pickQuality_no_match_max (qs : List Quality) (pref : String)
    (hne : qs ≠ [])
    (hnm : ∀ q ∈ qs, q.name ≠ some pref) :
    ∃ c, pickQuality qs pref = some c ∧ lastMaxBy resLe qs = some c ∧
      (∀ q ∈ qs, resNum q ≤ resNum c) ∧
      ((∃ q ∈ qs, 0 ≤ resNum q) → 0 ≤ resNum c) := by
  have hfind : qs.find? (fun q => q.name == some pref) = none := by
    rw [List.find?_eq_none]
    intro x hx
    simpa using hnm x hx
  have hpick : pickQuality qs pref = lastMaxBy resLe qs := by
    unfold pickQuality
    rw [if_neg (by simpa using hne), hfind,
      getLast?_sortStable resLe_total resLe_trans]
  cases hc : lastMaxBy resLe qs with
  | none => exact absurd (lastMaxBy_eq_none_iff.1 hc) hne
  | some c =>
    refine ⟨c, by rw [hpick, hc], rfl, ?_, ?_⟩
    · intro q hq
      have := lastMaxBy_isMax resLe_total resLe_trans hc q hq
      simpa [resLe] using this
    · rintro ⟨q, hq, hq0⟩
      have := lastMaxBy_isMax resLe_total resLe_trans hc q hq
      simp only [resLe, decide_eq_true_eq] at this
      omega

/-- Witness for C4 at a concrete input: two 1080p variants tie at the
maximum; the later one is returned. -/
theorem pickQuality_no_match_max_witness :
    ∃ c, pickQuality
        [⟨some "a", some "480p", some "u1"⟩, ⟨some "b", some "1080p", some "u2"⟩,
         ⟨some "c", some "1080p", some "u3"⟩] "mp4-1080" = some c ∧
      lastMaxBy resLe
        [⟨some "a", some "480p", some "u1"⟩, ⟨some "b", some "1080p", some "u2"⟩,
         ⟨some "c", some "1080p", some "u3"⟩] = some c ∧
      (∀ q ∈ [⟨some "a", some "480p", some "u1"⟩, ⟨some "b", some "1080p", some "u2"⟩,
         (⟨some "c", some "1080p", some "u3"⟩ : Quality)], resNum q ≤ resNum c) ∧
      ((∃ q ∈ [⟨some "a", some "480p", some "u1"⟩, ⟨some "b", some "1080p", some "u2"⟩,
         (⟨some "c", some "1080p", some "u3"⟩ : Quality)], 0 ≤ resNum q) → 0 ≤ resNum c) :=
  pickQuality_no_match_max
    [⟨some "a", some "480p", some "u1"⟩, ⟨some "b", some "1080p", some "u2"⟩,
     ⟨some "c", some "1080p", some "u3"⟩] "mp4-1080"
    (by decide) (by decide)

/--
C9 (implicit): on a non-empty list with no name match and no parsable
resolution label, `pickQuality` returns the last variant of the input
list — never absence.
-/
theorem pickQuality_all_unparsable (qs : List Quality) (pref : String)
    (hne : qs ≠ [])
    (hnm : ∀ q ∈ qs, q.name ≠ some pref)
    (hun : ∀ q ∈ qs, resNum q = -1) :
    pickQuality qs pref = qs.getLast? ∧ (pickQuality qs pref).isSome := by
  have hfind : qs.find? (fun q => q.name == some pref) = none := by
    rw [List.find?_eq_none]
    intro x hx
    simpa using hnm x hx
  have hpick : pickQuality qs pref = lastMaxBy resLe qs := by
    unfold pickQuality
    rw [if_neg (by simpa using hne), hfind,
      getLast?_sortStable resLe_total resLe_trans]
  have hall : ∀ a ∈ qs, ∀ b ∈ qs, resLe a b = true := by
    intro a ha b hb
    simp [resLe, hun a ha, hun b hb]
  rw [hpick, lastMaxBy_of_allTies hall]
  refine ⟨rfl, ?_⟩
  cases hq : qs.getLast? with
  | none => exact absurd (by simpa using hq) hne
  | some c => simp

/-- Witness for C9 at a concrete input: two unparsable labels, the last
variant is returned. -/
theorem pickQuality_all_unparsable_witness :
    pickQuality [⟨some "a", some "hd", some "u1"⟩, ⟨some "b", none, some "u2"⟩] "x"
        = [⟨some "a", some "hd", some "u1"⟩, (⟨some "b", none, some "u2"⟩ : Quality)].getLast? ∧
      (pickQuality [⟨some "a", some "hd", some "u1"⟩, ⟨some "b", none, some "u2"⟩] "x").isSome :=
  pickQuality_all_unparsable
    [⟨some "a", some "hd", some "u1"⟩, ⟨some "b", none, some "u2"⟩] "x"
    (by decide) (by decide) (by decide)

/--
C8: `buildTitle` appends the zero-padded `.SxxEyy` suffix exactly when
the item is a series episode (`kind` = "2") and both season and episode
are present (non-empty after trimming, i.e. `pad2` returns a value);
otherwise the output is exactly the sanitized base title chosen by
language priority.
-/
theorem buildTitle_sxxeyy (info : TitleInfo) :
    ((info.kind.getD "") = "2" →
      ∀ s e, pad2 info.season = some s → pad2 info.episodeNummer = some e →
        buildTitle info = sanitize (chooseBaseTitle info) ++ ".S" ++ s ++ "E" ++ e ∧
          2 ≤ s.length ∧ 2 ≤ e.length)
    ∧ (¬ ((info.kind.getD "") = "2" ∧ (pad2 info.season).isSome ∧
          (pad2 info.episodeNummer).isSome) →
        buildTitle info = sanitize (chooseBaseTitle info)) := by
  constructor
  · intro hk s e hs he
    refine ⟨?_, pad2_length hs, pad2_length he⟩
    unfold buildTitle
    rw [hs, he]
    simp [hk]
  · intro hniff
    unfold buildTitle
    cases hs : pad2 info.season with
    | none => simp
    | some s =>
      cases he : pad2 info.episodeNummer with
      | none => simp
      | some e =>
        have hk : ¬ (info.kind.getD "") = "2" := by
          intro hk
          exact hniff ⟨hk, by simp [hs], by simp [he]⟩
        simp [hk]

/-- Witness for C8: a series episode gets the suffix; dropping the
episode number drops it. -/
theorem buildTitle_sxxeyy_witness :
    (buildTitle ⟨some "Show", none, none, some "2", some "1", some "5"⟩
        = sanitize (chooseBaseTitle ⟨some "Show", none, none, some "2", some "1", some "5"⟩)
            ++ ".S" ++ "01" ++ "E" ++ "05" ∧
      2 ≤ ("01" : String).length ∧ 2 ≤ ("05" : String).length)
    ∧ buildTitle ⟨some "Show", none, none, some "2", some "1", none⟩
        = sanitize (chooseBaseTitle ⟨some "Show", none, none, some "2", some "1", none⟩) :=
  ⟨(buildTitle_sxxeyy ⟨some "Show", none, none, some "2", some "1", some "5"⟩).1
      (by decide) "01" "05" (by decide) (by decide),
    (buildTitle_sxxeyy ⟨some "Show", none, none, some "2", some "1", none⟩).2
      (by decide)⟩

/--
C7: an empty quality list fails the job with status `no-qualities` and
no downloads; a chosen variant without a usable `videoUrl` fails it with
`no-quality-url` and no downloads; and each job's result depends only on
its own input (the fan-out is an independent per-identifier map), so
either error terminates only that job.
-/
theorem processMovie_early_returns (cfg : JobCfg) (inp : JobInput) :
    (inp.qualities = [] →
      processMovie cfg inp = ⟨inp.id, "no-qualities", []⟩)
    ∧ (∀ c, pickQuality inp.qualities cfg.quality = some c →
        c.videoUrl.getD "" = "" →
        processMovie cfg inp = ⟨inp.id, "no-quality-url", []⟩)
    ∧ (∀ inputs : List JobInput, ∀ i : Nat,
        (runJobs cfg inputs)[i]? = (inputs[i]?).map (processMovie cfg)) := by
  refine ⟨?_, ?_, ?_⟩
  · intro h
    simp [processMovie, h]
  · intro c hc hurl
    unfold processMovie
    rw [hc]
    have hne : ¬ inp.qualities.isEmpty = true := by
      intro he
      rw [List.isEmpty_iff] at he
      rw [he] at hc
      simp [pickQuality] at hc
    simp [hne, hurl]
  · intro inputs i
    simp [runJobs]

/-- Witness for C7 at concrete inputs: both early returns and the
per-index independence of the fan-out. -/
theorem processMovie_early_returns_witness :
    (processMovie ⟨"mp4-1080", none, "both"⟩ ⟨"25006", ⟨none, none, none, none, none, none⟩, [], []⟩
        = ⟨"25006", "no-qualities", []⟩)
    ∧ (processMovie ⟨"mp4-1080", none, "both"⟩
          ⟨"25007", ⟨none, none, none, none, none, none⟩, [⟨some "mp4-1080", some "1080p", none⟩], []⟩
        = ⟨"25007", "no-quality-url", []⟩) := by
  constructor
  · exact (processMovie_early_returns ⟨"mp4-1080", none, "both"⟩
      ⟨"25006", ⟨none, none, none, none, none, none⟩, [], []⟩).1 rfl
  · exact ((processMovie_early_returns ⟨"mp4-1080", none, "both"⟩
      ⟨"25007", ⟨none, none, none, none, none, none⟩,
        [⟨some "mp4-1080", some "1080p", none⟩], []⟩).2.1)
      ⟨some "mp4-1080", some "1080p", none⟩ (by decide) (by decide)

end CinDl
